import Mathlib

/-!
Verification of `helpers.go` (package `helpers` of ics23-iavl)

A shallow embedding of the fixture helpers `GetKey`, `GetNonKey`, `BuildTree` and
`GenerateIavlResult`, followed by theorems about them.

Modelling conventions.

* A Go `[]byte` is a `List (Fin 256)`; a `[][]byte` is a list of those.
* A Go run-time panic is the `error` branch of `Except Fault`.
* The process-wide random source is made explicit: `RandInt : Int` is the outcome
  of the one call `cmn.RandInt()` made by `GetKey`, and `RandStr : Nat → Bytes` gives
  the outcome of the `i`-th call `cmn.RandStr(20)` made by `BuildTree`.
* The `iavl` tree is an external library; it is a parameter of the development
  (`TreeAPI`), threaded as explicit state.
* The largest length `make` accepts is a constant of the Go runtime and platform; it
  is the parameter `makeLimit` of `BuildTree` and `GenerateIavlResult`.
-/

namespace Helpers

/-- One byte. -/
abbrev Byte := Fin 256

/-- A Go byte slice, by content. -/
abbrev Bytes := List Byte

/-- Run-time panics of the Go code. -/
inductive Fault where
  | indexOutOfRange
  | divideByZero
  | nilDereference
  | makesliceLenOutOfRange
  deriving DecidableEq, Repr

/-- Source: `type Where int`. -/
abbrev Where := Int

/-- Source: `Left Where = iota`. -/
def Left : Where := 0

/-- Source: `Right` (iota = 1). -/
def Right : Where := 1

/-- Source: `Middle` (iota = 2). -/
def Middle : Where := 2

/-- Go slice indexing `xs[i]` with an `int` index: panics outside `0 ≤ i < len(xs)`. -/
def index {α : Type} (xs : List α) (i : Int) : Except Fault α :=
  if i < 0 then .error Fault.indexOutOfRange
  else
    match xs[i.toNat]? with
    | some x => .ok x
    | none => .error Fault.indexOutOfRange

/-- Go slice assignment `xs[i] = v` with an `int` index, on the content of the slice. -/
def setIndex {α : Type} (xs : List α) (i : Int) (v : α) : Except Fault (List α) :=
  if i < 0 then .error Fault.indexOutOfRange
  else if i.toNat < xs.length then .ok (xs.set i.toNat v)
  else .error Fault.indexOutOfRange

/-- Go `len(xs)` as an `int`. -/
def len {α : Type} (xs : List α) : Int := (xs.length : Int)

/-- Source: `GetKey` (helpers.go 63-74). `RandInt` is the value `cmn.RandInt()` returns
if it is called. Go's `%` truncates towards zero (`Int.tmod`) and panics on a zero
divisor. -/
def GetKey (allkeys : List Bytes) (loc : Where) (RandInt : Int) : Except Fault Bytes :=
  if loc = Left then index allkeys 0
  else if loc = Right then index allkeys (len allkeys - 1)
  else if len allkeys - 2 = 0 then .error Fault.divideByZero
  else index allkeys (RandInt.tmod (len allkeys - 2) + 1)

/-- Source: `GetNonKey` (helpers.go 76-89). The selected key is copied, then its last
two bytes are overwritten. -/
def GetNonKey (allkeys : List Bytes) (loc : Where) (RandInt : Int) : Except Fault Bytes :=
  if loc = Left then .ok [0, 0, 0, 1]
  else if loc = Right then .ok [0xff, 0xff, 0xff, 0xff]
  else do
    let key ← GetKey allkeys loc RandInt
    let key ← setIndex key (len key - 2) 255
    let key ← setIndex key (len key - 1) 255
    pure key

/-- Go `bytes.Compare`: lexicographic comparison of byte strings, `-1`, `0` or `1`. -/
def bytesCompare : Bytes → Bytes → Int
  | [], [] => 0
  | [], _ :: _ => -1
  | _ :: _, [] => 1
  | a :: as, b :: bs =>
    if a < b then -1 else if b < a then 1 else bytesCompare as bs

/-- The `less` closure handed to `sort.Slice` in `BuildTree`:
`bytes.Compare(keys[i], keys[j]) < 0`, on the two elements. -/
def keyLess (a b : Bytes) : Bool := decide (bytesCompare a b < 0)

/-- Go `sort.Slice(xs, less)` (standard library): the elements of `xs` rearranged so
that no element is `less` than an earlier one. It is realised here as an insertion
sort; `sortSlice_unique` shows that for `keyLess` every such rearrangement is this
same list, so the choice of algorithm is not observable. -/
def sortSlice {α : Type} (less : α → α → Bool) (xs : List α) : List α :=
  xs.insertionSort (fun a b => less b a = false)

/-- The bytes of the Go string literal `"value_for_"`. -/
def valuePrefix : Bytes := [118, 97, 108, 117, 101, 95, 102, 111, 114, 95]

/-- Modelled from the spec: the leaf record of `iavl.RangeProof` (the type is declared
in the external `iavl` library). The glossary calls a leaf "a single attested key/value
membership record inside a range proof". -/
structure ProofLeaf where
  Key : Bytes
  Value : Bytes
  deriving DecidableEq, Repr

/-- The part of `iavl.RangeProof` the helpers read: the field `Leaves`. -/
structure RangeProof where
  Leaves : List ProofLeaf
  deriving DecidableEq, Repr

/-- The operations of `iavl.MutableTree` used by the helpers, over a tree state `T`
and error values `E`. Every operation returns the tree state it leaves behind.
`GetWithProof` returns `(value, proof, err)`: `value = none` is a nil slice,
`proof = none` a nil pointer, `err = none` a nil error. -/
structure TreeAPI (T E : Type) where
  NewMutableTree : T
  Set : T → Bytes → Bytes → T
  GetWithProof : T → Bytes → (Option Bytes × Option RangeProof × Option E) × T
  WorkingHash : T → Bytes × T

/-- A Go `error` value: one handed back by the tree, or one built by `fmt.Errorf`. -/
inductive GoError (E : Type) where
  | fromTree (e : E)
  | errorf (msg : String)
  deriving DecidableEq, Repr

/-- Source: `type IavlResult struct` (helpers.go 19-24). -/
structure IavlResult where
  Key : Bytes
  Value : Bytes
  Proof : Option RangeProof
  RootHash : Bytes
  deriving DecidableEq, Repr

/-- The `for` loop of `BuildTree` (helpers.go 98-103): the tree and the filled prefix
of `keys` after `i` iterations. Iteration `i` draws `RandStr i`. -/
def buildLoop {T E : Type} (api : TreeAPI T E) (RandStr : Nat → Bytes) :
    Nat → T × List Bytes
  | 0 => (api.NewMutableTree, [])
  | i + 1 =>
    let (tree, keys) := buildLoop api RandStr i
    let key := RandStr i
    let value := valuePrefix ++ key
    (api.Set tree key value, keys ++ [key])

/-- The value of `makeLimit` on 64-bit targets: the runtime refuses an allocation above
`2^48` bytes and a `[]byte` header takes 24 bytes. Used for concrete runs only. -/
def makeLimit64 : Nat := 2 ^ 48 / 24

/-- Source: `BuildTree` (helpers.go 91-109). `make([][]byte, size)` panics with
`makeslice: len out of range` for a negative `size` and for a `size` above the
allocation limit of the run; `makeLimit` is the largest length `make` accepts, a
constant of the Go runtime and platform that the source does not fix. -/
def BuildTree {T E : Type} (api : TreeAPI T E) (makeLimit : Nat) (RandStr : Nat → Bytes)
    (size : Int) : Except Fault (T × List Bytes) :=
  if size < 0 ∨ (makeLimit : Int) < size then .error Fault.makesliceLenOutOfRange
  else
    let (tree, keys) := buildLoop api RandStr size.toNat
    .ok (tree, sortSlice keyLess keys)

/-- Source: `GenerateIavlResult` (helpers.go 29-52). The Go pair `(*IavlResult, error)`
is a pair of options; `none` is nil. -/
def GenerateIavlResult {T E : Type} (api : TreeAPI T E) (makeLimit : Nat)
    (RandStr : Nat → Bytes) (RandInt : Int) (size : Int) (loc : Where) :
    Except Fault (Option IavlResult × Option (GoError E)) := do
  let (tree, allkeys) ← BuildTree api makeLimit RandStr size
  let key ← GetKey allkeys loc RandInt
  let ((value, proof, err), tree) := api.GetWithProof tree key
  match err with
  | some e => pure (none, some (GoError.fromTree e))
  | none =>
    match value with
    | none => pure (none, some (GoError.errorf "GetWithProof returned nil value"))
    | some value =>
      match proof with
      | none => .error Fault.nilDereference
      | some p =>
        if p.Leaves.length ≠ 1 then
          pure (none, some (GoError.errorf
            ("GetWithProof returned " ++ toString p.Leaves.length ++ " leaves")))
        else
          let (root, _) := api.WorkingHash tree
          pure (some { Key := key, Value := value, Proof := some p, RootHash := root },
            none)

/-- The alphabet of `cmn.RandStr`: ASCII digits and letters. -/
def isAlnum (b : Byte) : Bool :=
  (48 ≤ b.val && b.val ≤ 57) || (65 ≤ b.val && b.val ≤ 90) || (97 ≤ b.val && b.val ≤ 122)

/-- The shape of a key drawn by `cmn.RandStr(20)`: 20 alphanumeric bytes. -/
def isRandStr20 (k : Bytes) : Bool := k.length == 20 && k.all isAlnum

/-- An in-memory stand-in for the tree: an association list, newest binding first.
`GetWithProof` answers a stored key with its value and a one-leaf proof. -/
def memTree : TreeAPI (List (Bytes × Bytes)) Unit where
  NewMutableTree := []
  Set := fun t k v => (k, v) :: t
  GetWithProof := fun t k =>
    match t.lookup k with
    | some v => ((some v, some { Leaves := [{ Key := k, Value := v }] }, none), t)
    | none => ((none, some { Leaves := [] }, none), t)
  WorkingHash := fun t => ((t.map (fun kv => kv.1 ++ kv.2)).flatten, t)

/-- A stub tree without state: `Set` stores nothing and `GetWithProof` answers every
key `k` with `answer k`. -/
def stubTree (answer : Bytes → Option Bytes × Option RangeProof × Option String) :
    TreeAPI Unit String where
  NewMutableTree := ()
  Set := fun _ _ _ => ()
  GetWithProof := fun _ k => (answer k, ())
  WorkingHash := fun _ => ([], ())

/-! ## Slices in memory

The definitions above work on the content of byte slices. The ones below keep the
backing arrays apart from the slice headers, to state which bytes a call overwrites. -/

/-- The byte arrays allocated so far; the address of an array is its position. -/
abbrev Heap := List Bytes

/-- A Go `[]byte` header: the address `arr` of the backing array, the offset `off` of
the first element in it, and the length `len`. The capacity is not recorded: the only
`append` in the helpers has the literal `[]byte{}` as its target. -/
structure Slice where
  arr : Nat
  off : Nat
  len : Nat
  deriving DecidableEq, Repr

/-- The bytes a slice header denotes in a heap. -/
def readSlice (m : Heap) (s : Slice) : Bytes :=
  ((m.getD s.arr []).drop s.off).take s.len

/-- Allocation of a fresh backing array holding `content`. -/
def alloc (m : Heap) (content : Bytes) : Slice × Heap :=
  ({ arr := m.length, off := 0, len := content.length }, m ++ [content])

/-- Go `s[i] = v` on a slice header: bounds-checked against `len(s)`, it overwrites one
byte of the backing array of `s`. -/
def storeByte (m : Heap) (s : Slice) (i : Int) (v : Byte) : Except Fault Heap :=
  if i < 0 then .error Fault.indexOutOfRange
  else if i.toNat < s.len then
    .ok (m.set s.arr ((m.getD s.arr []).set (s.off + i.toNat) v))
  else .error Fault.indexOutOfRange

/-- Go `append([]byte{}, src...)`: the target has length and capacity zero, so a
non-empty `src` is copied into a newly allocated array; for an empty `src` the empty
target itself is returned. -/
def appendToEmpty (m : Heap) (src : Slice) : Slice × Heap :=
  if src.len = 0 then ({ arr := 0, off := 0, len := 0 }, m)
  else alloc m (readSlice m src)

/-- Source: `GetKey` (helpers.go 63-74) on slice headers: the selected header is
returned as it is, sharing its backing array with the universe. -/
def GetKeyMem (allkeys : List Slice) (loc : Where) (RandInt : Int) : Except Fault Slice :=
  if loc = Left then index allkeys 0
  else if loc = Right then index allkeys (len allkeys - 1)
  else if len allkeys - 2 = 0 then .error Fault.divideByZero
  else index allkeys (RandInt.tmod (len allkeys - 2) + 1)

/-- Source: `GetNonKey` (helpers.go 76-89) on slice headers and a heap. The result is
the returned header and the heap the call leaves behind. -/
def GetNonKeyMem (m : Heap) (allkeys : List Slice) (loc : Where) (RandInt : Int) :
    Except Fault (Slice × Heap) :=
  if loc = Left then .ok (alloc m [0, 0, 0, 1])
  else if loc = Right then .ok (alloc m [0xff, 0xff, 0xff, 0xff])
  else do
    let src ← GetKeyMem allkeys loc RandInt
    let (key, m) := appendToEmpty m src
    let m ← storeByte m key ((key.len : Int) - 2) 255
    let m ← storeByte m key ((key.len : Int) - 1) 255
    pure (key, m)

/-! ## Byte-string order -/

theorem bytesCompare_self (a : Bytes) : bytesCompare a a = 0 := by
  induction a with
  | nil => rfl
  | cons x xs ih => simp [bytesCompare, ih]

theorem bytesCompare_cons (x y : Byte) (xs ys : Bytes) :
    bytesCompare (x :: xs) (y :: ys) =
      if x < y then -1 else if y < x then 1 else bytesCompare xs ys := rfl

theorem bytesCompare_eq_zero : ∀ (a b : Bytes), bytesCompare a b = 0 → a = b
  | [], [], _ => rfl
  | [], _ :: _, h => by simp [bytesCompare] at h
  | _ :: _, [], h => by simp [bytesCompare] at h
  | x :: xs, y :: ys, h => by
    rw [bytesCompare_cons] at h
    rcases lt_trichotomy x y with hlt | heq | hgt
    · simp [hlt] at h
    · subst heq
      simp only [lt_self_iff_false, if_false] at h
      rw [bytesCompare_eq_zero xs ys h]
    · simp [hgt, lt_asymm hgt] at h

theorem bytesCompare_swap : ∀ (a b : Bytes), bytesCompare b a = - bytesCompare a b
  | [], [] => rfl
  | [], _ :: _ => rfl
  | _ :: _, [] => rfl
  | x :: xs, y :: ys => by
    unfold bytesCompare
    split_ifs with h1 h2 h3
    · exact absurd h1 (lt_asymm h2)
    · rfl
    · rfl
    · exact bytesCompare_swap xs ys

theorem bytesCompare_range : ∀ (a b : Bytes),
    bytesCompare a b = -1 ∨ bytesCompare a b = 0 ∨ bytesCompare a b = 1
  | [], [] => Or.inr (Or.inl rfl)
  | [], _ :: _ => Or.inl rfl
  | _ :: _, [] => Or.inr (Or.inr rfl)
  | x :: xs, y :: ys => by
    unfold bytesCompare
    split_ifs
    · exact Or.inl rfl
    · exact Or.inr (Or.inr rfl)
    · exact bytesCompare_range xs ys

theorem bytesCompare_lt_trans : ∀ (a b c : Bytes),
    bytesCompare a b < 0 → bytesCompare b c < 0 → bytesCompare a c < 0
  | [], [], _, h, _ => by simp [bytesCompare] at h
  | [], _ :: _, [], _, h => by simp [bytesCompare] at h
  | [], _ :: _, _ :: _, _, _ => by simp [bytesCompare]
  | _ :: _, [], _, h, _ => by simp [bytesCompare] at h
  | _ :: _, _ :: _, [], _, h => by simp [bytesCompare] at h
  | x :: xs, y :: ys, z :: zs, h1, h2 => by
    rw [bytesCompare_cons] at h1 h2 ⊢
    rcases lt_trichotomy x y with hxy | hxy | hxy
    · rcases lt_trichotomy y z with hyz | hyz | hyz
      · simp [lt_trans hxy hyz]
      · subst hyz
        simp [hxy]
      · simp [hyz, lt_asymm hyz] at h2
    · subst hxy
      simp only [lt_self_iff_false, if_false] at h1
      rcases lt_trichotomy x z with hyz | hyz | hyz
      · simp [hyz]
      · subst hyz
        simp only [lt_self_iff_false, if_false] at h2 ⊢
        exact bytesCompare_lt_trans xs ys zs h1 h2
      · simp [hyz, lt_asymm hyz] at h2
    · simp [hxy, lt_asymm hxy] at h1

theorem keyLess_false_iff (a b : Bytes) : keyLess b a = false ↔ bytesCompare a b ≤ 0 := by
  unfold keyLess
  rw [decide_eq_false_iff_not, bytesCompare_swap a b]
  omega

theorem bytesCompare_le_trans (a b c : Bytes)
    (h1 : bytesCompare a b ≤ 0) (h2 : bytesCompare b c ≤ 0) : bytesCompare a c ≤ 0 := by
  rcases lt_or_eq_of_le h1 with h1 | h1
  · rcases lt_or_eq_of_le h2 with h2 | h2
    · exact Int.le_of_lt (bytesCompare_lt_trans a b c h1 h2)
    · rw [← bytesCompare_eq_zero b c h2]
      exact Int.le_of_lt h1
  · rw [bytesCompare_eq_zero a b h1]
    exact h2

/-! ## `sort.Slice` on keys -/

theorem keyOrder_total : IsTotal Bytes (fun a b => keyLess b a = false) :=
  ⟨fun a b => by
    simp only [keyLess_false_iff]
    have := bytesCompare_swap a b
    omega⟩

theorem keyOrder_trans : IsTrans Bytes (fun a b => keyLess b a = false) :=
  ⟨fun a b c h1 h2 => by
    simp only [keyLess_false_iff] at h1 h2 ⊢
    exact bytesCompare_le_trans a b c h1 h2⟩

theorem keyOrder_antisymm : IsAntisymm Bytes (fun a b => keyLess b a = false) :=
  ⟨fun a b h1 h2 => by
    simp only [keyLess_false_iff] at h1 h2
    have := bytesCompare_swap a b
    exact bytesCompare_eq_zero a b (by omega)⟩

theorem sortSlice_perm (l : List Bytes) : (sortSlice keyLess l).Perm l :=
  List.perm_insertionSort _ l

theorem sortSlice_sorted (l : List Bytes) :
    (sortSlice keyLess l).Pairwise (fun a b => bytesCompare a b ≤ 0) := by
  haveI := keyOrder_total
  haveI := keyOrder_trans
  have h := List.sorted_insertionSort (fun a b => keyLess b a = false) l
  exact List.Pairwise.imp (fun {a b} hab => (keyLess_false_iff a b).mp hab) h

/-- Any rearrangement of `l` in which no element is `keyLess` than an earlier one is
the list `sortSlice keyLess l`. -/
theorem sortSlice_unique (l l' : List Bytes) (hp : l'.Perm l)
    (hs : l'.Pairwise (fun a b => keyLess b a = false)) : l' = sortSlice keyLess l := by
  haveI := keyOrder_total
  haveI := keyOrder_trans
  haveI := keyOrder_antisymm
  exact List.eq_of_perm_of_sorted (hp.trans (sortSlice_perm l).symm) hs
    (List.sorted_insertionSort (fun a b => keyLess b a = false) l)

/-! ## `BuildTree` -/

theorem buildLoop_keys {T E : Type} (api : TreeAPI T E) (RandStr : Nat → Bytes) (n : Nat) :
    (buildLoop api RandStr n).2 = (List.range n).map RandStr := by
  induction n with
  | zero => rfl
  | succ n ih =>
    simp only [buildLoop, List.range_succ, List.map_append, List.map_cons, List.map_nil]
    rw [← ih]

theorem BuildTree_ok {T E : Type} (api : TreeAPI T E) (makeLimit : Nat)
    (RandStr : Nat → Bytes) (size : Int) (h : 0 ≤ size) (hmax : size ≤ makeLimit) :
    BuildTree api makeLimit RandStr size =
      .ok ((buildLoop api RandStr size.toNat).1,
        sortSlice keyLess ((List.range size.toNat).map RandStr)) := by
  unfold BuildTree
  rw [if_neg (by omega), ← buildLoop_keys api RandStr]

/-- The sizes `make` refuses: `BuildTree` panics and returns nothing. -/
theorem BuildTree_faults {T E : Type} (api : TreeAPI T E) (makeLimit : Nat)
    (RandStr : Nat → Bytes) (size : Int) (h : size < 0 ∨ (makeLimit : Int) < size) :
    BuildTree api makeLimit RandStr size = .error Fault.makesliceLenOutOfRange := by
  unfold BuildTree
  rw [if_pos h]

/-- Whenever `BuildTree` returns, `make` accepted the size, and the returned pair is
the tree after the loop and the sorted list of the generated keys. -/
theorem BuildTree_returns {T E : Type} (api : TreeAPI T E) (makeLimit : Nat)
    (RandStr : Nat → Bytes) (size : Int) (tree : T) (keys : List Bytes)
    (h : BuildTree api makeLimit RandStr size = .ok (tree, keys)) :
    0 ≤ size ∧ size ≤ makeLimit ∧ tree = (buildLoop api RandStr size.toNat).1 ∧
      keys = sortSlice keyLess ((List.range size.toNat).map RandStr) := by
  by_cases hbad : size < 0 ∨ (makeLimit : Int) < size
  · rw [BuildTree_faults api makeLimit RandStr size hbad] at h
    exact Except.noConfusion h
  · have h0 : 0 ≤ size := by omega
    have h1 : size ≤ makeLimit := by omega
    rw [BuildTree_ok api makeLimit RandStr size h0 h1] at h
    injection h with h
    injection h with ht hk
    exact ⟨h0, h1, ht.symm, hk.symm⟩

theorem sortSlice_strict (l : List Bytes) (hn : l.Nodup) :
    (sortSlice keyLess l).Pairwise (fun a b => bytesCompare a b < 0) := by
  have hs := sortSlice_sorted l
  have hd : (sortSlice keyLess l).Pairwise (fun a b => a ≠ b) :=
    ((sortSlice_perm l).nodup_iff).mpr hn
  refine List.Pairwise.imp₂ ?_ hs hd
  intro a b hle hne
  rcases lt_or_eq_of_le hle with h | h
  · exact h
  · exact absurd (bytesCompare_eq_zero a b h) hne

theorem nodup_map_range (RandStr : Nat → Bytes) (n : Nat) :
    ((List.range n).map RandStr).Nodup ↔
      ∀ i j, i < n → j < n → RandStr i = RandStr j → i = j := by
  rw [List.nodup_map_iff_inj_on (List.nodup_range n)]
  simp only [List.mem_range]
  constructor
  · intro h i j hi hj he
    exact h i hi j hj he
  · intro h i hi j hj he
    exact h i j hi hj he

/-- In a non-decreasing list the first element is below and the last above every
element. -/
theorem sorted_head_getLast (l : List Bytes) (hne : l ≠ [])
    (hs : l.Pairwise (fun a b => bytesCompare a b ≤ 0)) (x : Bytes) (hx : x ∈ l) :
    bytesCompare (l.head hne) x ≤ 0 ∧ bytesCompare x (l.getLast hne) ≤ 0 := by
  obtain ⟨j, hj, rfl⟩ := List.mem_iff_getElem.mp hx
  have hpos : 0 < l.length := List.length_pos.mpr hne
  rw [List.pairwise_iff_getElem] at hs
  constructor
  · rw [← List.getElem_zero hpos]
    rcases Nat.eq_zero_or_pos j with h0 | h0
    · subst h0
      exact le_of_eq (bytesCompare_self _)
    · exact hs 0 j hpos hj h0
  · rw [List.getLast_eq_getElem]
    rcases Nat.lt_or_ge j (l.length - 1) with hlt | hge
    · exact hs j (l.length - 1) hj (by omega) hlt
    · have hjl : j = l.length - 1 := by omega
      subst hjl
      exact le_of_eq (bytesCompare_self _)

/-! ## `GetKey` -/

theorem index_ofNat {α : Type} (xs : List α) (i : Nat) (x : α) (h : xs[i]? = some x) :
    index xs (i : Int) = .ok x := by
  unfold index
  rw [if_neg (by omega)]
  simp [h]

theorem GetKey_middle_eq (allkeys : List Bytes) (n : Nat) (h : 3 ≤ allkeys.length) :
    GetKey allkeys Middle (n : Int) =
      index allkeys ((n % (allkeys.length - 2) + 1 : Nat) : Int) := by
  have hL : len allkeys - 2 = ((allkeys.length - 2 : Nat) : Int) := by
    unfold len; omega
  unfold GetKey
  rw [if_neg (by decide), if_neg (by decide), hL, if_neg (by omega), ← Int.ofNat_tmod]
  rfl

theorem GetKey_middle_get (allkeys : List Bytes) (RandInt : Int)
    (hlen : 3 ≤ allkeys.length) (hr : 0 ≤ RandInt) :
    ∃ k, allkeys[RandInt.toNat % (allkeys.length - 2) + 1]? = some k ∧
      GetKey allkeys Middle RandInt = .ok k := by
  have hpos : 0 < allkeys.length - 2 := by omega
  have hlt := Nat.mod_lt RandInt.toNat hpos
  have hi : RandInt.toNat % (allkeys.length - 2) + 1 < allkeys.length := by omega
  refine ⟨allkeys[RandInt.toNat % (allkeys.length - 2) + 1], by simp [hi], ?_⟩
  obtain ⟨n, rfl⟩ := Int.eq_ofNat_of_zero_le hr
  rw [GetKey_middle_eq allkeys n hlen]
  exact index_ofNat _ _ _ (by simp [hi])

/-- C1: for a universe of at least three keys and a non-negative random draw `r`,
`GetKey` at `Middle` returns the key at index `i = r mod (len - 2) + 1`, and
`1 ≤ i ≤ len - 2`, so the key is neither the first nor the last element. -/
theorem GetKey_middle_interior (allkeys : List Bytes) (RandInt : Int)
    (hlen : 3 ≤ allkeys.length) (hr : 0 ≤ RandInt) :
    1 ≤ RandInt.toNat % (allkeys.length - 2) + 1 ∧
    RandInt.toNat % (allkeys.length - 2) + 1 ≤ allkeys.length - 2 ∧
    ∃ k, allkeys[RandInt.toNat % (allkeys.length - 2) + 1]? = some k ∧
      GetKey allkeys Middle RandInt = .ok k := by
  have hpos : 0 < allkeys.length - 2 := by omega
  have hlt := Nat.mod_lt RandInt.toNat hpos
  exact ⟨by omega, by omega, GetKey_middle_get allkeys RandInt hlen hr⟩

theorem GetKey_middle_interior_witness :
    3 ≤ ([[1], [2], [3], [4]] : List Bytes).length ∧ (0 : Int) ≤ 5 ∧
    ∃ k, ([[1], [2], [3], [4]] : List Bytes)[(5 : Int).toNat % (4 - 2) + 1]? = some k ∧
      GetKey [[1], [2], [3], [4]] Middle 5 = .ok k :=
  ⟨by decide, by decide,
    (GetKey_middle_interior [[1], [2], [3], [4]] 5 (by decide) (by decide)).2.2⟩

theorem GetKey_ends (allkeys : List Bytes) (RandInt : Int) (hne : allkeys ≠ []) :
    GetKey allkeys Left RandInt = .ok (allkeys.head hne) ∧
    GetKey allkeys Right RandInt = .ok (allkeys.getLast hne) := by
  constructor
  · cases allkeys with
    | nil => exact absurd rfl hne
    | cons k ks => simp [GetKey, index]
  · have hpos : 0 < allkeys.length := List.length_pos.mpr hne
    have hL : len allkeys - 1 = ((allkeys.length - 1 : Nat) : Int) := by
      unfold len; omega
    unfold GetKey
    rw [if_neg (by decide), if_pos rfl, hL]
    apply index_ofNat
    rw [List.getLast_eq_getElem]
    simp [hpos]

/-- C5: for a non-empty universe, `GetKey` at `Left` returns the first element and at
`Right` the last element, whatever the random source would return. -/
theorem GetKey_left_right (allkeys : List Bytes) (RandInt : Int) (hne : allkeys ≠ []) :
    GetKey allkeys Left RandInt = .ok (allkeys.head hne) ∧
    GetKey allkeys Right RandInt = .ok (allkeys.getLast hne) :=
  GetKey_ends allkeys RandInt hne

theorem GetKey_left_right_witness :
    GetKey [[7], [8], [9]] Left 0 = .ok [7] ∧ GetKey [[7], [8], [9]] Right 0 = .ok [9] :=
  GetKey_left_right [[7], [8], [9]] 0 (by decide)

/-! ## `GetNonKey` -/

theorem setIndex_ofNat {α : Type} (xs : List α) (i : Nat) (v : α) (h : i < xs.length) :
    setIndex xs (i : Int) v = .ok (xs.set i v) := by
  unfold setIndex
  rw [if_neg (by omega)]
  simp [h]

/-- The two assignments of `GetNonKey` on a key `pre ++ [a, b]`. -/
theorem overwrite_last_two (pre : Bytes) (a b : Byte) :
    (do
      let key ← setIndex (pre ++ [a, b]) (len (pre ++ [a, b]) - 2) 255
      let key ← setIndex key (len key - 1) 255
      pure key : Except Fault Bytes) = .ok (pre ++ [255, 255]) := by
  have h1 : len (pre ++ [a, b]) - 2 = ((pre.length : Nat) : Int) := by
    simp [len]
  have h2 : len (pre ++ [(255 : Byte), b]) - 1 = ((pre.length + 1 : Nat) : Int) := by
    simp only [len, List.length_append, List.length_cons, List.length_nil]
    omega
  rw [h1, setIndex_ofNat _ _ _ (by simp)]
  have e1 : (pre ++ [a, b]).set pre.length 255 = pre ++ [255, b] := by
    simp [List.set_append]
  rw [e1]
  show (do
      let key ← setIndex (pre ++ [255, b]) (len (pre ++ [(255 : Byte), b]) - 1) 255
      pure key : Except Fault Bytes) = _
  rw [h2, setIndex_ofNat _ _ _ (by simp)]
  have e2 : (pre ++ [(255 : Byte), b]).set (pre.length + 1) 255 = pre ++ [255, 255] := by
    simp [List.set_append]
  rw [e2]
  rfl

theorem exists_last_two (key : Bytes) (h : 2 ≤ key.length) :
    ∃ a b, key = key.take (key.length - 2) ++ [a, b] := by
  have hd : (key.drop (key.length - 2)).length = 2 := by
    rw [List.length_drop]; omega
  match hk : key.drop (key.length - 2), hd with
  | [a, b], _ =>
    refine ⟨a, b, ?_⟩
    rw [← hk, List.take_append_drop]

theorem overwrite_eq (key : Bytes) (h : 2 ≤ key.length) :
    (do
      let key ← setIndex key (len key - 2) 255
      let key ← setIndex key (len key - 1) 255
      pure key : Except Fault Bytes) = .ok (key.take (key.length - 2) ++ [255, 255]) := by
  obtain ⟨a, b, hab⟩ := exists_last_two key h
  have e := overwrite_last_two (key.take (key.length - 2)) a b
  rw [← hab] at e
  exact e

/-- The `Middle` branch of `GetNonKey` once `GetKey` has selected `key`. -/
theorem GetNonKey_middle_eq (allkeys : List Bytes) (RandInt : Int) (key : Bytes)
    (hk : GetKey allkeys Middle RandInt = .ok key) (h : 2 ≤ key.length) :
    GetNonKey allkeys Middle RandInt = .ok (key.take (key.length - 2) ++ [255, 255]) := by
  unfold GetNonKey
  rw [if_neg (by decide), if_neg (by decide), hk]
  exact overwrite_eq key h

/-- C3 (counterexample): in a universe that holds the two fixed sentinels,
`GetNonKey` at `Left` and at `Right` returns a member of the universe. -/
theorem GetNonKey_sentinel_collides :
    GetNonKey [[0, 0, 0, 1], [255, 255, 255, 255]] Left 0 = .ok [0, 0, 0, 1] ∧
    ([0, 0, 0, 1] : Bytes) ∈ ([[0, 0, 0, 1], [255, 255, 255, 255]] : List Bytes) ∧
    GetNonKey [[0, 0, 0, 1], [255, 255, 255, 255]] Right 0 = .ok [255, 255, 255, 255] ∧
    ([255, 255, 255, 255] : Bytes) ∈ ([[0, 0, 0, 1], [255, 255, 255, 255]] : List Bytes) :=
  ⟨rfl, by decide, rfl, by decide⟩

/-- C3 (amended): for every universe that contains neither `[0,0,0,1]` nor
`[0xff,0xff,0xff,0xff]`, `GetNonKey` at `Left` and at `Right` returns a byte string
that is not a member of the universe. -/
theorem GetNonKey_left_right_absent (allkeys : List Bytes) (RandInt : Int)
    (hL : ([0, 0, 0, 1] : Bytes) ∉ allkeys)
    (hR : ([255, 255, 255, 255] : Bytes) ∉ allkeys) :
    ∃ kl kr, GetNonKey allkeys Left RandInt = .ok kl ∧ kl ∉ allkeys ∧
      GetNonKey allkeys Right RandInt = .ok kr ∧ kr ∉ allkeys :=
  ⟨[0, 0, 0, 1], [255, 255, 255, 255], rfl, hL, rfl, hR⟩

theorem GetNonKey_left_right_absent_witness :
    ∃ kl kr,
      GetNonKey [List.replicate 20 65, List.replicate 20 66, List.replicate 20 122] Left 3
        = .ok kl ∧
      kl ∉ ([List.replicate 20 65, List.replicate 20 66, List.replicate 20 122] : List Bytes) ∧
      GetNonKey [List.replicate 20 65, List.replicate 20 66, List.replicate 20 122] Right 3
        = .ok kr ∧
      kr ∉ ([List.replicate 20 65, List.replicate 20 66, List.replicate 20 122] : List Bytes) :=
  GetNonKey_left_right_absent
    [List.replicate 20 65, List.replicate 20 66, List.replicate 20 122] 3
    (by decide) (by decide)

/-- C4 (counterexample): a universe of three keys of length two in which the key built
by `GetNonKey` at `Middle` is the third key of the universe. -/
theorem GetNonKey_middle_collides :
    3 ≤ ([[1, 1], [2, 2], [255, 255]] : List Bytes).length ∧
    (∀ k ∈ ([[1, 1], [2, 2], [255, 255]] : List Bytes), 2 ≤ k.length) ∧
    GetNonKey [[1, 1], [2, 2], [255, 255]] Middle 0 = .ok [255, 255] ∧
    ([255, 255] : Bytes) ∈ ([[1, 1], [2, 2], [255, 255]] : List Bytes) :=
  ⟨by decide, by decide, rfl, by decide⟩

/-- C4 (amended): for every universe of at least three keys, each of length at least
two and none ending in the two bytes `0xff 0xff`, and every non-negative random draw,
`GetNonKey` at `Middle` returns a byte string that is not a member of the universe. -/
theorem GetNonKey_middle_absent (allkeys : List Bytes) (RandInt : Int)
    (hlen : 3 ≤ allkeys.length) (hk : ∀ k ∈ allkeys, 2 ≤ k.length) (hr : 0 ≤ RandInt)
    (hs : ∀ k ∈ allkeys, ¬ ([255, 255] : Bytes) <:+ k) :
    ∃ k, GetNonKey allkeys Middle RandInt = .ok k ∧ k ∉ allkeys := by
  obtain ⟨key, hget, hkey⟩ := GetKey_middle_get allkeys RandInt hlen hr
  have hmem : key ∈ allkeys := List.getElem?_mem hget
  refine ⟨_, GetNonKey_middle_eq allkeys RandInt key hkey (hk key hmem), ?_⟩
  intro hin
  exact hs _ hin (List.suffix_append _ _)

theorem GetNonKey_middle_absent_witness :
    ∃ k, GetNonKey [[1, 1], [2, 2], [3, 3, 255]] Middle 4 = .ok k ∧
      k ∉ ([[1, 1], [2, 2], [3, 3, 255]] : List Bytes) :=
  GetNonKey_middle_absent [[1, 1], [2, 2], [3, 3, 255]] 4 (by decide) (by decide)
    (by decide) (by decide)

/-! ## `GenerateIavlResult` -/

/-- What `GenerateIavlResult` returns once the tree is built, the key selected and
`GetWithProof` has answered. -/
theorem GenerateIavlResult_run {T E : Type} (api : TreeAPI T E) (makeLimit : Nat)
    (RandStr : Nat → Bytes)
    (RandInt size : Int) (loc : Where) (tree tree1 : T) (allkeys : List Bytes)
    (key : Bytes) (value : Option Bytes) (proof : Option RangeProof) (err : Option E)
    (hb : BuildTree api makeLimit RandStr size = .ok (tree, allkeys))
    (hk : GetKey allkeys loc RandInt = .ok key)
    (hg : api.GetWithProof tree key = ((value, proof, err), tree1)) :
    GenerateIavlResult api makeLimit RandStr RandInt size loc =
      match err with
      | some e => .ok (none, some (GoError.fromTree e))
      | none =>
        match value with
        | none => .ok (none, some (GoError.errorf "GetWithProof returned nil value"))
        | some v =>
          match proof with
          | none => .error Fault.nilDereference
          | some p =>
            if p.Leaves.length ≠ 1 then
              .ok (none, some (GoError.errorf
                ("GetWithProof returned " ++ toString p.Leaves.length ++ " leaves")))
            else
              .ok (some { Key := key, Value := v, Proof := some p,
                          RootHash := (api.WorkingHash tree1).1 }, none) := by
  unfold GenerateIavlResult
  simp only [hb, hk, hg, bind, Except.bind]
  cases err with
  | some e => rfl
  | none =>
    cases value with
    | none => rfl
    | some v =>
      cases proof with
      | none => rfl
      | some p =>
        by_cases hl : p.Leaves.length = 1
        · simp [hl, pure, Except.pure]
        · simp [hl, pure, Except.pure]

/-- Every non-faulting run of `GenerateIavlResult` went through `BuildTree`, `GetKey`
and `GetWithProof`. -/
theorem GenerateIavlResult_trace {T E : Type} (api : TreeAPI T E) (makeLimit : Nat)
    (RandStr : Nat → Bytes)
    (RandInt size : Int) (loc : Where) (out : Option IavlResult × Option (GoError E))
    (h : GenerateIavlResult api makeLimit RandStr RandInt size loc = .ok out) :
    ∃ tree allkeys key, BuildTree api makeLimit RandStr size = .ok (tree, allkeys) ∧
      GetKey allkeys loc RandInt = .ok key := by
  cases hb : BuildTree api makeLimit RandStr size with
  | error f =>
    unfold GenerateIavlResult at h
    simp [hb, bind, Except.bind] at h
  | ok tk =>
    obtain ⟨tree, allkeys⟩ := tk
    cases hk : GetKey allkeys loc RandInt with
    | error f =>
      unfold GenerateIavlResult at h
      simp [hb, hk, bind, Except.bind] at h
    | ok key => exact ⟨tree, allkeys, key, rfl, hk⟩

/-- A successful run: the pieces the result is assembled from. -/
theorem GenerateIavlResult_success {T E : Type} (api : TreeAPI T E) (makeLimit : Nat)
    (RandStr : Nat → Bytes)
    (RandInt size : Int) (loc : Where) (res : IavlResult) (e : Option (GoError E))
    (h : GenerateIavlResult api makeLimit RandStr RandInt size loc = .ok (some res, e)) :
    ∃ tree tree1 allkeys value proof,
      BuildTree api makeLimit RandStr size = .ok (tree, allkeys) ∧
      GetKey allkeys loc RandInt = .ok res.Key ∧
      api.GetWithProof tree res.Key = ((some value, some proof, none), tree1) ∧
      proof.Leaves.length = 1 ∧
      res = { Key := res.Key, Value := value, Proof := some proof,
              RootHash := (api.WorkingHash tree1).1 } ∧
      e = none := by
  obtain ⟨tree, allkeys, key, hb, hk⟩ :=
    GenerateIavlResult_trace api makeLimit RandStr RandInt size loc _ h
  cases hg : api.GetWithProof tree key with
  | mk r tree1 =>
    obtain ⟨value, proof, err⟩ := r
    rw [GenerateIavlResult_run api makeLimit RandStr RandInt size loc tree tree1 allkeys key value
      proof err hb hk hg] at h
    cases err with
    | some e0 => simp at h
    | none =>
      cases value with
      | none => simp at h
      | some v =>
        cases proof with
        | none => simp at h
        | some p =>
          by_cases hl : p.Leaves.length = 1
          · simp only [hl, ne_eq, not_true_eq_false, if_false, Except.ok.injEq,
              Prod.mk.injEq, Option.some.injEq] at h
            obtain ⟨hres, he⟩ := h
            subst hres
            exact ⟨tree, tree1, allkeys, v, p, hb, hk, hg, hl, rfl, he.symm⟩
          · simp [hl] at h

/-! ## The key universe of `BuildTree` -/

/-- C2 (counterexample): when the generator draws the same 20-letter key three times,
`BuildTree 3` returns that key three times: the list is neither strictly increasing
nor free of duplicates. -/
theorem BuildTree_keeps_duplicates :
    isRandStr20 (List.replicate 20 65) = true ∧
    BuildTree memTree makeLimit64 (fun _ => List.replicate 20 65) 3 =
      .ok ((buildLoop memTree (fun _ => List.replicate 20 65) 3).1,
        [List.replicate 20 65, List.replicate 20 65, List.replicate 20 65]) ∧
    ¬ ([List.replicate 20 65, List.replicate 20 65, List.replicate 20 65] :
        List Bytes).Pairwise (fun a b => bytesCompare a b < 0) ∧
    ¬ ([List.replicate 20 65, List.replicate 20 65, List.replicate 20 65] :
        List Bytes).Nodup :=
  ⟨by decide, rfl, by decide, by decide⟩

/-- C2 (amended): for every size of at least three and every outcome of the key
generator, `BuildTree` returns whenever `make` accepts the size, and every key list it
returns is non-decreasing under byte-wise comparison; the list is strictly increasing
and free of duplicates exactly when the generated keys are pairwise distinct. -/
theorem BuildTree_keys_sorted {T E : Type} (api : TreeAPI T E) (makeLimit : Nat)
    (RandStr : Nat → Bytes) (size : Int) (h : 3 ≤ size) :
    (size ≤ makeLimit →
      ∃ tree keys, BuildTree api makeLimit RandStr size = .ok (tree, keys)) ∧
    ∀ tree keys, BuildTree api makeLimit RandStr size = .ok (tree, keys) →
      keys.Pairwise (fun a b => bytesCompare a b ≤ 0) ∧
      ((keys.Pairwise (fun a b => bytesCompare a b < 0) ∧ keys.Nodup) ↔
        ∀ i j, i < size.toNat → j < size.toNat → RandStr i = RandStr j → i = j) := by
  constructor
  · intro hmax
    exact ⟨_, _, BuildTree_ok api makeLimit RandStr size (by omega) hmax⟩
  · intro tree keys hb
    obtain ⟨_, _, _, hkeys⟩ := BuildTree_returns api makeLimit RandStr size tree keys hb
    subst hkeys
    refine ⟨sortSlice_sorted _, ?_⟩
    rw [← nodup_map_range]
    constructor
    · intro hk
      exact ((sortSlice_perm _).nodup_iff).mp hk.2
    · intro hn
      exact ⟨sortSlice_strict _ hn, ((sortSlice_perm _).nodup_iff).mpr hn⟩

theorem BuildTree_keys_sorted_witness :
    (∃ tree keys,
      BuildTree memTree makeLimit64 (fun i => List.replicate 20 (Fin.ofNat (70 - i))) 3
        = .ok (tree, keys)) ∧
    ([List.replicate 20 68, List.replicate 20 69, List.replicate 20 70] :
        List Bytes).Pairwise (fun a b => bytesCompare a b ≤ 0) ∧
    ((([List.replicate 20 68, List.replicate 20 69, List.replicate 20 70] :
        List Bytes).Pairwise (fun a b => bytesCompare a b < 0) ∧
      ([List.replicate 20 68, List.replicate 20 69, List.replicate 20 70] :
        List Bytes).Nodup) ↔
      ∀ i j, i < (3 : Int).toNat → j < (3 : Int).toNat →
        (fun i => List.replicate 20 (Fin.ofNat (70 - i)) : Nat → Bytes) i =
          (fun i => List.replicate 20 (Fin.ofNat (70 - i)) : Nat → Bytes) j → i = j) :=
  ⟨(BuildTree_keys_sorted memTree makeLimit64
      (fun i => List.replicate 20 (Fin.ofNat (70 - i))) 3 (by decide)).1 (by decide),
    (BuildTree_keys_sorted memTree makeLimit64
      (fun i => List.replicate 20 (Fin.ofNat (70 - i))) 3 (by decide)).2
      (buildLoop memTree (fun i => List.replicate 20 (Fin.ofNat (70 - i))) 3).1
      [List.replicate 20 68, List.replicate 20 69, List.replicate 20 70] (by rfl)⟩

/-- C6: for every size of at least one and every outcome of the key generator,
`BuildTree` returns whenever `make` accepts the size, and from every universe it
returns the key `GetKey` selects at `Left` is one of the generated keys and is below or
equal to each of them, the key selected at `Right` is one of them and above or equal to
each of them, and a successful `GenerateIavlResult` at `Left` carries that smallest
key. -/
theorem BuildTree_left_right_extremes {T E : Type} (api : TreeAPI T E)
    (makeLimit : Nat) (RandStr : Nat → Bytes) (RandInt size : Int) (h : 1 ≤ size) :
    (size ≤ makeLimit →
      ∃ tree keys, BuildTree api makeLimit RandStr size = .ok (tree, keys)) ∧
    ∀ tree keys, BuildTree api makeLimit RandStr size = .ok (tree, keys) →
      ∃ kl kr, GetKey keys Left RandInt = .ok kl ∧ GetKey keys Right RandInt = .ok kr ∧
        (∃ i, i < size.toNat ∧ kl = RandStr i) ∧ (∃ j, j < size.toNat ∧ kr = RandStr j) ∧
        (∀ i, i < size.toNat →
          bytesCompare kl (RandStr i) ≤ 0 ∧ bytesCompare kr (RandStr i) ≥ 0) ∧
        (∀ res e,
          GenerateIavlResult api makeLimit RandStr RandInt size Left = .ok (some res, e) →
          res.Key = kl) := by
  constructor
  · intro hmax
    exact ⟨_, _, BuildTree_ok api makeLimit RandStr size (by omega) hmax⟩
  · intro tree keys hb
    obtain ⟨_, _, _, hkeys⟩ := BuildTree_returns api makeLimit RandStr size tree keys hb
    subst hkeys
    have hp := sortSlice_perm ((List.range size.toNat).map RandStr)
    have hne : sortSlice keyLess ((List.range size.toNat).map RandStr) ≠ [] := by
      intro h0
      have hlen := hp.length_eq
      rw [h0] at hlen
      simp at hlen
      omega
    have hmem : ∀ x, x ∈ sortSlice keyLess ((List.range size.toNat).map RandStr) ↔
        ∃ i, i < size.toNat ∧ x = RandStr i := by
      intro x
      rw [hp.mem_iff, List.mem_map]
      simp only [List.mem_range]
      constructor
      · rintro ⟨i, hi, rfl⟩
        exact ⟨i, hi, rfl⟩
      · rintro ⟨i, hi, rfl⟩
        exact ⟨i, hi, rfl⟩
    obtain ⟨hl, hr⟩ := GetKey_ends _ RandInt hne
    refine ⟨_, _, hl, hr, (hmem _).mp (List.head_mem hne),
      (hmem _).mp (List.getLast_mem hne), ?_, ?_⟩
    · intro i hi
      have hx := (hmem (RandStr i)).mpr ⟨i, hi, rfl⟩
      have hs := sorted_head_getLast _ hne (sortSlice_sorted _) (RandStr i) hx
      refine ⟨hs.1, ?_⟩
      have := bytesCompare_swap (RandStr i)
        ((sortSlice keyLess ((List.range size.toNat).map RandStr)).getLast hne)
      omega
    · intro res e hres
      obtain ⟨tree1, tree2, allkeys, value, proof, hb1, hk1, _⟩ :=
        GenerateIavlResult_success api makeLimit RandStr RandInt size Left res e hres
      rw [hb] at hb1
      injection hb1 with hb1
      injection hb1 with _ hkeys
      rw [← hkeys, hl] at hk1
      injection hk1 with hk1
      exact hk1.symm

theorem BuildTree_left_right_extremes_witness :
    (∃ tree keys,
      BuildTree memTree makeLimit64 (fun i => [Fin.ofNat (70 - i), 65]) 3
        = .ok (tree, keys)) ∧
    (∃ res, GenerateIavlResult memTree makeLimit64 (fun i => [Fin.ofNat (70 - i), 65]) 0 3
        Left = .ok (some res, none) ∧ res.Key = [68, 65]) ∧
    ∃ kl kr, GetKey [[68, 65], [69, 65], [70, 65]] Left 0 = .ok kl ∧
      GetKey [[68, 65], [69, 65], [70, 65]] Right 0 = .ok kr ∧
      (∃ i, i < (3 : Int).toNat ∧ kl = (fun i => [Fin.ofNat (70 - i), 65] : Nat → Bytes) i) ∧
      (∃ j, j < (3 : Int).toNat ∧ kr = (fun i => [Fin.ofNat (70 - i), 65] : Nat → Bytes) j) ∧
      (∀ i, i < (3 : Int).toNat →
        bytesCompare kl ((fun i => [Fin.ofNat (70 - i), 65] : Nat → Bytes) i) ≤ 0 ∧
        bytesCompare kr ((fun i => [Fin.ofNat (70 - i), 65] : Nat → Bytes) i) ≥ 0) ∧
      (∀ res e,
        GenerateIavlResult memTree makeLimit64 (fun i => [Fin.ofNat (70 - i), 65]) 0 3 Left
          = .ok (some res, e) → res.Key = kl) :=
  ⟨(BuildTree_left_right_extremes memTree makeLimit64
      (fun i => [Fin.ofNat (70 - i), 65]) 0 3 (by decide)).1 (by decide),
    ⟨_, by rfl, rfl⟩,
    (BuildTree_left_right_extremes memTree makeLimit64
      (fun i => [Fin.ofNat (70 - i), 65]) 0 3 (by decide)).2
      (buildLoop memTree (fun i => [Fin.ofNat (70 - i), 65]) 3).1
      [[68, 65], [69, 65], [70, 65]] (by rfl)⟩

/-! ## Validation in `GenerateIavlResult` -/

/-- C7 (counterexample): a tree that answers with a zero-length, non-nil value and a
one-leaf proof is accepted: `GenerateIavlResult` returns a result with the empty value
and no error. -/
theorem GenerateIavlResult_accepts_empty_value :
    GenerateIavlResult
      (stubTree (fun k => (some [], some { Leaves := [{ Key := k, Value := [] }] }, none)))
      makeLimit64 (fun _ => List.replicate 20 65) 0 1 Left =
    .ok (some { Key := List.replicate 20 65, Value := [],
                Proof := some { Leaves := [{ Key := List.replicate 20 65, Value := [] }] },
                RootHash := [] }, none) :=
  rfl

/-- C7 (amended): whenever `GetWithProof` returns no error and a nil value,
`GenerateIavlResult` returns no result together with the error
"GetWithProof returned nil value". -/
theorem GenerateIavlResult_nil_value {T E : Type} (api : TreeAPI T E)
    (makeLimit : Nat)
    (RandStr : Nat → Bytes) (RandInt size : Int) (loc : Where) (tree tree1 : T)
    (allkeys : List Bytes) (key : Bytes) (proof : Option RangeProof)
    (hb : BuildTree api makeLimit RandStr size = .ok (tree, allkeys))
    (hk : GetKey allkeys loc RandInt = .ok key)
    (hg : api.GetWithProof tree key = ((none, proof, none), tree1)) :
    GenerateIavlResult api makeLimit RandStr RandInt size loc =
      .ok (none, some (GoError.errorf "GetWithProof returned nil value")) := by
  rw [GenerateIavlResult_run api makeLimit RandStr RandInt size loc tree tree1 allkeys key none
    proof none hb hk hg]

theorem GenerateIavlResult_nil_value_witness :
    GenerateIavlResult (stubTree (fun _ => (none, none, none)))
      makeLimit64 (fun _ => List.replicate 20 65) 0 1 Left =
    .ok (none, some (GoError.errorf "GetWithProof returned nil value")) :=
  GenerateIavlResult_nil_value (stubTree (fun _ => (none, none, none)))
    makeLimit64 (fun _ => List.replicate 20 65) 0 1 Left () () [List.replicate 20 65]
    (List.replicate 20 65) none rfl rfl rfl

/-- C8: a result returned by `GenerateIavlResult` carries a proof with exactly one leaf;
and whenever `GetWithProof` returns a proof whose leaf count is not one,
`GenerateIavlResult` returns no result and an error. -/
theorem GenerateIavlResult_one_leaf {T E : Type} (api : TreeAPI T E)
    (makeLimit : Nat)
    (RandStr : Nat → Bytes) (RandInt size : Int) (loc : Where) :
    (∀ res e, GenerateIavlResult api makeLimit RandStr RandInt size loc = .ok (some res, e) →
      ∃ p, res.Proof = some p ∧ p.Leaves.length = 1) ∧
    (∀ tree tree1 allkeys key value p err,
      BuildTree api makeLimit RandStr size = .ok (tree, allkeys) →
      GetKey allkeys loc RandInt = .ok key →
      api.GetWithProof tree key = ((value, some p, err), tree1) →
      p.Leaves.length ≠ 1 →
      ∃ e, GenerateIavlResult api makeLimit RandStr RandInt size loc = .ok (none, some e)) := by
  constructor
  · intro res e h
    obtain ⟨_, _, _, value, proof, _, _, _, hl, hres, _⟩ :=
      GenerateIavlResult_success api makeLimit RandStr RandInt size loc res e h
    exact ⟨proof, by rw [hres], hl⟩
  · intro tree tree1 allkeys key value p err hb hk hg hl
    rw [GenerateIavlResult_run api makeLimit RandStr RandInt size loc tree tree1 allkeys key value
      (some p) err hb hk hg]
    cases err with
    | some e0 => exact ⟨_, rfl⟩
    | none =>
      cases value with
      | none => exact ⟨_, rfl⟩
      | some v => exact ⟨_, if_pos hl⟩

theorem GenerateIavlResult_one_leaf_witness :
    (∃ p, some ({ Leaves := [{ Key := [68, 65], Value := valuePrefix ++ [68, 65] }] } :
        RangeProof) = some p ∧ p.Leaves.length = 1) ∧
    (∃ e, GenerateIavlResult
        (stubTree (fun _ => (some [1], some { Leaves := [] }, none)))
        makeLimit64 (fun _ => List.replicate 20 65) 0 1 Left = .ok (none, some e)) :=
  ⟨(GenerateIavlResult_one_leaf memTree makeLimit64
      (fun i => [Fin.ofNat (70 - i), 65]) 0 3 Left).1
      { Key := [68, 65], Value := valuePrefix ++ [68, 65],
        Proof := some { Leaves := [{ Key := [68, 65], Value := valuePrefix ++ [68, 65] }] },
        RootHash := (memTree.WorkingHash
          (buildLoop memTree (fun i => [Fin.ofNat (70 - i), 65]) 3).1).1 }
      none (by rfl),
    (GenerateIavlResult_one_leaf
        (stubTree (fun _ => (some [1], some { Leaves := [] }, none)))
        makeLimit64 (fun _ => List.replicate 20 65) 0 1 Left).2
      () () [List.replicate 20 65] (List.replicate 20 65) (some [1]) { Leaves := [] } none
      rfl rfl rfl (by decide)⟩

theorem memTree_proof_attests (t t1 : List (Bytes × Bytes)) (k v : Bytes) (p : RangeProof)
    (h : memTree.GetWithProof t k = ((some v, some p, none), t1)) :
    ∀ l ∈ p.Leaves, l.Key = k ∧ l.Value = v := by
  simp only [memTree] at h
  cases hlk : t.lookup k with
  | none => simp [hlk] at h
  | some w =>
    simp only [hlk, Prod.mk.injEq, Option.some.injEq] at h
    obtain ⟨⟨hv, hp, _⟩, _⟩ := h
    subst hv
    subst hp
    intro l hl
    simp only [List.mem_singleton] at hl
    subst hl
    exact ⟨rfl, rfl⟩

/-- C9 (counterexample): a tree whose one-leaf proof attests another key and another
value than the ones it returns is accepted; the leaf of the result differs from the
result's `Key` and `Value`. -/
theorem GenerateIavlResult_leaf_unchecked :
    GenerateIavlResult
      (stubTree (fun _ => (some [2], some { Leaves := [{ Key := [0], Value := [1] }] }, none)))
      makeLimit64 (fun _ => List.replicate 20 65) 0 1 Left =
    .ok (some { Key := List.replicate 20 65, Value := [2],
                Proof := some { Leaves := [{ Key := [0], Value := [1] }] },
                RootHash := [] }, none) ∧
    ([0] : Bytes) ≠ List.replicate 20 65 ∧ ([1] : Bytes) ≠ [2] :=
  ⟨rfl, by decide, by decide⟩

/-- C9 (amended): if every leaf of a proof that `GetWithProof` returns without error
attests the requested key and the returned value, then the proof of every successful
`GenerateIavlResult` has a single leaf whose key and value are the `Key` and `Value`
of the result. -/
theorem GenerateIavlResult_leaf_matches {T E : Type} (api : TreeAPI T E)
    (makeLimit : Nat)
    (RandStr : Nat → Bytes) (RandInt size : Int) (loc : Where)
    (hfaith : ∀ t t1 k v p, api.GetWithProof t k = ((some v, some p, none), t1) →
      ∀ l ∈ p.Leaves, l.Key = k ∧ l.Value = v)
    (res : IavlResult) (e : Option (GoError E))
    (h : GenerateIavlResult api makeLimit RandStr RandInt size loc = .ok (some res, e)) :
    ∃ leaf, res.Proof = some { Leaves := [leaf] } ∧
      leaf.Key = res.Key ∧ leaf.Value = res.Value := by
  obtain ⟨tree, tree1, _, value, proof, _, _, hg, hl, hres, _⟩ :=
    GenerateIavlResult_success api makeLimit RandStr RandInt size loc res e h
  obtain ⟨leaves⟩ := proof
  match leaves, hl with
  | [leaf], _ =>
    have hv : res.Value = value := by rw [hres]
    have hp : res.Proof = some { Leaves := [leaf] } := by rw [hres]
    have hm := hfaith tree tree1 res.Key value _ hg leaf (List.mem_singleton.mpr rfl)
    exact ⟨leaf, hp, hm.1, by rw [hv]; exact hm.2⟩

theorem GenerateIavlResult_leaf_matches_witness :
    ∃ leaf, some ({ Leaves := [{ Key := [68, 65], Value := valuePrefix ++ [68, 65] }] } :
        RangeProof) = some { Leaves := [leaf] } ∧
      leaf.Key = [68, 65] ∧ leaf.Value = valuePrefix ++ [68, 65] :=
  GenerateIavlResult_leaf_matches memTree makeLimit64 (fun i => [Fin.ofNat (70 - i), 65]) 0 3 Left
    (fun t t1 k v p h => memTree_proof_attests t t1 k v p h)
    { Key := [68, 65], Value := valuePrefix ++ [68, 65],
      Proof := some { Leaves := [{ Key := [68, 65], Value := valuePrefix ++ [68, 65] }] },
      RootHash := (memTree.WorkingHash
        (buildLoop memTree (fun i => [Fin.ofNat (70 - i), 65]) 3).1).1 }
    none (by rfl)

/-- C10: `GenerateIavlResult` never returns a result together with an error nor
neither of them; when `GetWithProof` returns an error, no result and that same error
are returned; when the value is nil or the leaf count is not one, no result and a
non-nil error are returned. -/
theorem GenerateIavlResult_failure {T E : Type} (api : TreeAPI T E)
    (makeLimit : Nat)
    (RandStr : Nat → Bytes) (RandInt size : Int) (loc : Where) :
    (∀ out, GenerateIavlResult api makeLimit RandStr RandInt size loc = .ok out →
      (out.1 = none ∧ out.2 ≠ none) ∨ (out.1 ≠ none ∧ out.2 = none)) ∧
    (∀ tree tree1 allkeys key value proof err,
      BuildTree api makeLimit RandStr size = .ok (tree, allkeys) →
      GetKey allkeys loc RandInt = .ok key →
      api.GetWithProof tree key = ((value, proof, err), tree1) →
      (∀ e, err = some e →
        GenerateIavlResult api makeLimit RandStr RandInt size loc =
          .ok (none, some (GoError.fromTree e))) ∧
      (err = none → value = none →
        GenerateIavlResult api makeLimit RandStr RandInt size loc =
          .ok (none, some (GoError.errorf "GetWithProof returned nil value"))) ∧
      (∀ p, err = none → value ≠ none → proof = some p → p.Leaves.length ≠ 1 →
        GenerateIavlResult api makeLimit RandStr RandInt size loc =
          .ok (none, some (GoError.errorf
            ("GetWithProof returned " ++ toString p.Leaves.length ++ " leaves"))))) := by
  have hrun := GenerateIavlResult_run api makeLimit RandStr RandInt size loc
  constructor
  · intro out h
    obtain ⟨tree, allkeys, key, hb, hk⟩ :=
      GenerateIavlResult_trace api makeLimit RandStr RandInt size loc out h
    cases hg : api.GetWithProof tree key with
    | mk r tree1 =>
      obtain ⟨value, proof, err⟩ := r
      rw [hrun tree tree1 allkeys key value proof err hb hk hg] at h
      cases err with
      | some e0 =>
        injection h with h
        subst h
        exact Or.inl ⟨rfl, by simp⟩
      | none =>
        cases value with
        | none =>
          injection h with h
          subst h
          exact Or.inl ⟨rfl, by simp⟩
        | some v =>
          cases proof with
          | none => simp at h
          | some p =>
            by_cases hl : p.Leaves.length = 1
            · simp only [hl, ne_eq, not_true_eq_false, if_false] at h
              injection h with h
              subst h
              exact Or.inr ⟨by simp, rfl⟩
            · simp only [hl, ne_eq, not_false_eq_true, if_true] at h
              injection h with h
              subst h
              exact Or.inl ⟨rfl, by simp⟩
  · intro tree tree1 allkeys key value proof err hb hk hg
    rw [hrun tree tree1 allkeys key value proof err hb hk hg]
    refine ⟨?_, ?_, ?_⟩
    · intro e he
      subst he
      rfl
    · intro he hv
      subst he
      subst hv
      rfl
    · intro p he hv hp hl
      subst he
      subst hp
      cases value with
      | none => exact absurd rfl hv
      | some v => exact if_pos hl

theorem GenerateIavlResult_failure_witness :
    GenerateIavlResult (stubTree (fun _ => (some [1], none, some "closed")))
      makeLimit64 (fun _ => List.replicate 20 65) 0 1 Left =
    .ok (none, some (GoError.fromTree "closed")) :=
  ((GenerateIavlResult_failure (stubTree (fun _ => (some [1], none, some "closed")))
      makeLimit64 (fun _ => List.replicate 20 65) 0 1 Left).2
    () () [List.replicate 20 65] (List.replicate 20 65) (some [1]) none (some "closed")
    rfl rfl rfl).1 "closed" rfl

/-! ## Faults of `GetKey` on a small universe -/

theorem index_ge_length {α : Type} (xs : List α) (i : Int) (h : len xs ≤ i) :
    index xs i = .error Fault.indexOutOfRange := by
  unfold index
  split_ifs with hneg
  · rfl
  · have hn : xs.length ≤ i.toNat := by
      unfold len at h
      omega
    rw [List.getElem?_eq_none hn]

/-- C12: for a universe of fewer than three keys and a non-negative random draw,
`GetKey` at `Middle` never returns a key: it faults with a division by zero when the
universe has two keys and with an index out of range when it has none or one. -/
theorem GetKey_middle_small_faults (allkeys : List Bytes) (RandInt : Int)
    (hlen : allkeys.length < 3) (hr : 0 ≤ RandInt) :
    (allkeys.length = 2 → GetKey allkeys Middle RandInt = .error Fault.divideByZero) ∧
    (allkeys.length ≠ 2 → GetKey allkeys Middle RandInt = .error Fault.indexOutOfRange) ∧
    ∀ k, GetKey allkeys Middle RandInt ≠ .ok k := by
  have hnn := Int.tmod_nonneg (len allkeys - 2) hr
  have hdiv : allkeys.length = 2 → GetKey allkeys Middle RandInt = .error Fault.divideByZero := by
    intro h2
    unfold GetKey
    rw [if_neg (by decide), if_neg (by decide), if_pos (by unfold len; omega)]
  have hidx : allkeys.length ≠ 2 →
      GetKey allkeys Middle RandInt = .error Fault.indexOutOfRange := by
    intro h2
    unfold GetKey
    rw [if_neg (by decide), if_neg (by decide), if_neg (by unfold len; omega)]
    apply index_ge_length
    by_cases h1 : allkeys.length = 1
    · have h0 : len allkeys = 1 := by unfold len; omega
      rw [h0] at hnn ⊢
      omega
    · have h0 : len allkeys = 0 := by unfold len; omega
      rw [h0] at hnn ⊢
      omega
  refine ⟨hdiv, hidx, ?_⟩
  intro k hk
  by_cases h2 : allkeys.length = 2
  · rw [hdiv h2] at hk
    exact Except.noConfusion hk
  · rw [hidx h2] at hk
    exact Except.noConfusion hk

theorem GetKey_middle_small_faults_witness :
    GetKey [[1], [2]] Middle 7 = .error Fault.divideByZero ∧
    GetKey [[1]] Middle 7 = .error Fault.indexOutOfRange ∧
    GetKey [] Middle 7 = .error Fault.indexOutOfRange :=
  ⟨(GetKey_middle_small_faults [[1], [2]] 7 (by decide) (by decide)).1 rfl,
    (GetKey_middle_small_faults [[1]] 7 (by decide) (by decide)).2.1 (by decide),
    (GetKey_middle_small_faults [] 7 (by decide) (by decide)).2.1 (by decide)⟩

/-! ## The sentinels of `GetNonKey` -/

/-- C15: for every universe and every value of the random source, `GetNonKey` at
`Right` returns the four bytes `0xff 0xff 0xff 0xff` and at `Left` the four bytes
`0 0 0 1`. -/
theorem GetNonKey_sentinels (allkeys : List Bytes) (RandInt : Int) :
    GetNonKey allkeys Right RandInt = .ok [0xff, 0xff, 0xff, 0xff] ∧
    GetNonKey allkeys Left RandInt = .ok [0, 0, 0, 1] :=
  ⟨rfl, rfl⟩

/-! ## The key list of `BuildTree` as a rearrangement -/

/-- C17: for every non-negative size and every outcome of the key generator,
`BuildTree` returns whenever `make` accepts the size, and every key list it returns is
a permutation of the generated keys (so it has exactly `size` entries and keeps
repeated keys) in non-decreasing byte-wise order. -/
theorem BuildTree_keys_perm {T E : Type} (api : TreeAPI T E) (makeLimit : Nat)
    (RandStr : Nat → Bytes) (size : Int) (h : 0 ≤ size) :
    (size ≤ makeLimit →
      ∃ tree keys, BuildTree api makeLimit RandStr size = .ok (tree, keys)) ∧
    ∀ tree keys, BuildTree api makeLimit RandStr size = .ok (tree, keys) →
      keys.Perm ((List.range size.toNat).map RandStr) ∧
      keys.length = size.toNat ∧
      keys.Pairwise (fun a b => bytesCompare a b ≤ 0) := by
  constructor
  · intro hmax
    exact ⟨_, _, BuildTree_ok api makeLimit RandStr size h hmax⟩
  · intro tree keys hb
    obtain ⟨_, _, _, hkeys⟩ := BuildTree_returns api makeLimit RandStr size tree keys hb
    subst hkeys
    refine ⟨sortSlice_perm _, ?_, sortSlice_sorted _⟩
    rw [(sortSlice_perm _).length_eq]
    simp

theorem BuildTree_keys_perm_witness :
    (∃ tree keys,
      BuildTree memTree makeLimit64 (fun i => [Fin.ofNat (65 + i % 2)]) 3
        = .ok (tree, keys)) ∧
    ([[65], [65], [66]] : List Bytes).Perm
      ((List.range (3 : Int).toNat).map (fun i => [Fin.ofNat (65 + i % 2)])) ∧
    ([[65], [65], [66]] : List Bytes).length = (3 : Int).toNat ∧
    ([[65], [65], [66]] : List Bytes).Pairwise (fun a b => bytesCompare a b ≤ 0) :=
  ⟨(BuildTree_keys_perm memTree makeLimit64 (fun i => [Fin.ofNat (65 + i % 2)]) 3
      (by decide)).1 (by decide),
    (BuildTree_keys_perm memTree makeLimit64 (fun i => [Fin.ofNat (65 + i % 2)]) 3
      (by decide)).2 (buildLoop memTree (fun i => [Fin.ofNat (65 + i % 2)]) 3).1
      [[65], [65], [66]] (by rfl)⟩

/-! ## The fields of a successful result -/

theorem index_ok_mem {α : Type} (xs : List α) (i : Int) (x : α) (h : index xs i = .ok x) :
    x ∈ xs := by
  unfold index at h
  split_ifs at h
  cases hx : xs[i.toNat]? with
  | none => simp [hx] at h
  | some y =>
    simp only [hx, Except.ok.injEq] at h
    subst h
    exact List.getElem?_mem hx

theorem GetKey_ok_mem (allkeys : List Bytes) (loc : Where) (RandInt : Int) (k : Bytes)
    (h : GetKey allkeys loc RandInt = .ok k) : k ∈ allkeys := by
  unfold GetKey at h
  split_ifs at h
  · exact index_ok_mem _ _ _ h
  · exact index_ok_mem _ _ _ h
  · exact index_ok_mem _ _ _ h

/-- C18: in every successful `GenerateIavlResult` the `Key` is what `GetKey` selects
from the universe of `BuildTree` (a member of that universe), `Value` and `Proof` are
the value and proof `GetWithProof` returned for that key, and `RootHash` is the working
hash of the tree as `GetWithProof` left it. -/
theorem GenerateIavlResult_fields {T E : Type} (api : TreeAPI T E) (makeLimit : Nat)
    (RandStr : Nat → Bytes)
    (RandInt size : Int) (loc : Where) (res : IavlResult) (e : Option (GoError E))
    (h : GenerateIavlResult api makeLimit RandStr RandInt size loc = .ok (some res, e)) :
    ∃ tree tree1 allkeys,
      BuildTree api makeLimit RandStr size = .ok (tree, allkeys) ∧
      GetKey allkeys loc RandInt = .ok res.Key ∧
      res.Key ∈ allkeys ∧
      api.GetWithProof tree res.Key = ((some res.Value, res.Proof, none), tree1) ∧
      res.RootHash = (api.WorkingHash tree1).1 := by
  obtain ⟨tree, tree1, allkeys, value, proof, hb, hk, hg, _, hres, _⟩ :=
    GenerateIavlResult_success api makeLimit RandStr RandInt size loc res e h
  have hv : res.Value = value := by rw [hres]
  have hp : res.Proof = some proof := by rw [hres]
  have hh : res.RootHash = (api.WorkingHash tree1).1 := by rw [hres]
  refine ⟨tree, tree1, allkeys, hb, hk, GetKey_ok_mem _ _ _ _ hk, ?_, hh⟩
  rw [hv, hp]
  exact hg

theorem GenerateIavlResult_fields_witness :
    ∃ tree tree1 allkeys,
      BuildTree memTree makeLimit64 (fun i => [Fin.ofNat (70 - i), 65]) 3 = .ok (tree, allkeys) ∧
      GetKey allkeys Middle 0 = .ok [69, 65] ∧
      ([69, 65] : Bytes) ∈ allkeys ∧
      memTree.GetWithProof tree [69, 65] =
        ((some (valuePrefix ++ [69, 65]),
          some { Leaves := [{ Key := [69, 65], Value := valuePrefix ++ [69, 65] }] }, none),
          tree1) ∧
      (memTree.WorkingHash (buildLoop memTree (fun i => [Fin.ofNat (70 - i), 65]) 3).1).1
        = (memTree.WorkingHash tree1).1 :=
  GenerateIavlResult_fields memTree makeLimit64 (fun i => [Fin.ofNat (70 - i), 65]) 0 3 Middle
    { Key := [69, 65], Value := valuePrefix ++ [69, 65],
      Proof := some { Leaves := [{ Key := [69, 65], Value := valuePrefix ++ [69, 65] }] },
      RootHash := (memTree.WorkingHash
        (buildLoop memTree (fun i => [Fin.ofNat (70 - i), 65]) 3).1).1 }
    none (by rfl)

/-! ## Keys of the shape `cmn.RandStr(20)` -/

theorem isAlnum_bounds (b : Byte) (h : isAlnum b = true) : 48 ≤ b.val ∧ b.val ≤ 122 := by
  unfold isAlnum at h
  simp only [Bool.or_eq_true, Bool.and_eq_true, decide_eq_true_eq] at h
  omega

theorem isRandStr20_shape (k : Bytes) (h : isRandStr20 k = true) :
    k.length = 20 ∧ ∀ b ∈ k, 48 ≤ b.val ∧ b.val ≤ 122 := by
  unfold isRandStr20 at h
  simp only [Bool.and_eq_true, beq_iff_eq, List.all_eq_true] at h
  exact ⟨h.1, fun b hb => isAlnum_bounds b (h.2 b hb)⟩

theorem bytesCompare_low_head (b : Byte) (rest tail : Bytes) (hb : 0 < b.val) :
    bytesCompare (0 :: tail) (b :: rest) = -1 := by
  rw [bytesCompare_cons, if_pos]
  exact Fin.lt_def.mpr hb

theorem bytesCompare_high_head (b : Byte) (rest tail : Bytes) (hb : b.val < 255) :
    bytesCompare (255 :: tail) (b :: rest) = 1 := by
  have h1 : b < (255 : Byte) := Fin.lt_def.mpr hb
  rw [bytesCompare_cons, if_neg (lt_asymm h1), if_pos h1]

/-- C14: when every key of the universe consists of 20 ASCII letters or digits,
`GetNonKey` at `Left` is byte-wise strictly below every key of the universe and
`GetNonKey` at `Right` strictly above every key. -/
theorem GetNonKey_sentinels_outside (allkeys : List Bytes) (RandInt : Int)
    (h : ∀ k ∈ allkeys, isRandStr20 k = true) :
    ∃ kl kr, GetNonKey allkeys Left RandInt = .ok kl ∧
      GetNonKey allkeys Right RandInt = .ok kr ∧
      ∀ k ∈ allkeys, bytesCompare kl k < 0 ∧ bytesCompare kr k > 0 := by
  refine ⟨[0, 0, 0, 1], [255, 255, 255, 255], rfl, rfl, ?_⟩
  intro k hk
  obtain ⟨hlen, hall⟩ := isRandStr20_shape k (h k hk)
  cases k with
  | nil => simp at hlen
  | cons b rest =>
    have hb := hall b (List.mem_cons_self b rest)
    rw [bytesCompare_low_head b rest [0, 0, 1] (by omega),
      bytesCompare_high_head b rest [255, 255, 255] (by omega)]
    exact ⟨by decide, by decide⟩

theorem GetNonKey_sentinels_outside_witness :
    ∃ kl kr,
      GetNonKey [List.replicate 20 48, List.replicate 20 77, List.replicate 20 122] Left 3
        = .ok kl ∧
      GetNonKey [List.replicate 20 48, List.replicate 20 77, List.replicate 20 122] Right 3
        = .ok kr ∧
      ∀ k ∈ ([List.replicate 20 48, List.replicate 20 77, List.replicate 20 122] :
          List Bytes), bytesCompare kl k < 0 ∧ bytesCompare kr k > 0 :=
  GetNonKey_sentinels_outside
    [List.replicate 20 48, List.replicate 20 77, List.replicate 20 122] 3 (by decide)

/-! ## The shape of the `Middle` non-key -/

theorem bytesCompare_append_left (pre x y : Bytes) :
    bytesCompare (pre ++ x) (pre ++ y) = bytesCompare x y := by
  induction pre with
  | nil => rfl
  | cons p ps ih =>
    rw [List.cons_append, List.cons_append, bytesCompare_cons]
    simp only [lt_self_iff_false, if_false]
    exact ih

theorem bytesCompare_le_ff (a b : Byte) : bytesCompare [a, b] [255, 255] ≤ 0 := by
  have ha : a ≤ (255 : Byte) := Fin.le_def.mpr (by have := a.isLt; simp; omega)
  have hb : b ≤ (255 : Byte) := Fin.le_def.mpr (by have := b.isLt; simp; omega)
  rw [bytesCompare_cons]
  rcases lt_or_eq_of_le ha with h | h
  · simp [h]
  · subst h
    simp only [lt_self_iff_false, if_false]
    rw [bytesCompare_cons]
    rcases lt_or_eq_of_le hb with h | h
    · simp [h]
    · subst h
      simp [bytesCompare]

/-- C19: for a universe of at least three keys and a non-negative random draw that
selects the interior key `k` of length `n ≥ 2`, `GetNonKey` at `Middle` returns a byte
string of length `n` that agrees with `k` on the first `n - 2` bytes and ends in
`0xff 0xff`; it is byte-wise greater than or equal to `k`. -/
theorem GetNonKey_middle_shape (allkeys : List Bytes) (RandInt : Int) (k : Bytes)
    (hlen : 3 ≤ allkeys.length) (hr : 0 ≤ RandInt)
    (hk : allkeys[RandInt.toNat % (allkeys.length - 2) + 1]? = some k)
    (hn : 2 ≤ k.length) :
    ∃ res, GetNonKey allkeys Middle RandInt = .ok res ∧
      res.length = k.length ∧
      res.take (k.length - 2) = k.take (k.length - 2) ∧
      res.drop (k.length - 2) = [255, 255] ∧
      bytesCompare k res ≤ 0 := by
  obtain ⟨k1, hk1, hget⟩ := GetKey_middle_get allkeys RandInt hlen hr
  rw [hk] at hk1
  injection hk1 with hk1
  subst hk1
  have hl : (k.take (k.length - 2)).length = k.length - 2 := by
    rw [List.length_take]; omega
  refine ⟨_, GetNonKey_middle_eq allkeys RandInt k hget hn, ?_, ?_, ?_, ?_⟩
  · rw [List.length_append, hl]
    simp
    omega
  · rw [List.take_append_of_le_length (by omega)]
    rw [List.take_of_length_le (by omega)]
  · rw [List.drop_append_of_le_length (by omega)]
    rw [List.drop_of_length_le (by omega)]
    rfl
  · obtain ⟨a, b, hab⟩ := exists_last_two k hn
    have e := bytesCompare_append_left (k.take (k.length - 2)) [a, b] [255, 255]
    rw [← hab] at e
    rw [e]
    exact bytesCompare_le_ff a b

theorem GetNonKey_middle_shape_witness :
    ∃ res, GetNonKey [[65, 65, 65], [66, 66, 66], [67, 67, 67]] Middle 4 = .ok res ∧
      res.length = ([66, 66, 66] : Bytes).length ∧
      res.take (([66, 66, 66] : Bytes).length - 2) = ([66, 66, 66] : Bytes).take
        (([66, 66, 66] : Bytes).length - 2) ∧
      res.drop (([66, 66, 66] : Bytes).length - 2) = [255, 255] ∧
      bytesCompare [66, 66, 66] res ≤ 0 :=
  GetNonKey_middle_shape [[65, 65, 65], [66, 66, 66], [67, 67, 67]] 4 [66, 66, 66]
    (by decide) (by decide) (by decide) (by decide)

theorem isRandStr20_no_ff (k : Bytes) (h : isRandStr20 k = true) :
    2 ≤ k.length ∧ (255 : Byte) ∉ k := by
  obtain ⟨hlen, hall⟩ := isRandStr20_shape k h
  refine ⟨by omega, ?_⟩
  intro hin
  exact absurd (hall 255 hin).2 (by decide)

theorem GetNonKey_middle_fresh (allkeys : List Bytes) (RandInt : Int)
    (hlen : 3 ≤ allkeys.length) (hr : 0 ≤ RandInt)
    (hk : ∀ k ∈ allkeys, 2 ≤ k.length ∧ (255 : Byte) ∉ k) :
    ∃ res, GetNonKey allkeys Middle RandInt = .ok res ∧ res ∉ allkeys := by
  obtain ⟨key, hget, hkey⟩ := GetKey_middle_get allkeys RandInt hlen hr
  have hmem : key ∈ allkeys := List.getElem?_mem hget
  refine ⟨_, GetNonKey_middle_eq allkeys RandInt key hkey (hk key hmem).1, ?_⟩
  intro hin
  exact (hk _ hin).2 (List.mem_append_right _ (List.mem_cons_self _ _))

/-- C20: for a universe of at least three keys, each of length at least two and
without any byte `0xff`, and every non-negative random draw, `GetNonKey` at `Middle`
returns a byte string that is not a member of the universe; this covers every universe
of keys made of 20 ASCII letters or digits. -/
theorem GetNonKey_middle_absent_no_ff (allkeys : List Bytes) (RandInt : Int)
    (hlen : 3 ≤ allkeys.length) (hr : 0 ≤ RandInt) :
    ((∀ k ∈ allkeys, 2 ≤ k.length ∧ (255 : Byte) ∉ k) →
      ∃ res, GetNonKey allkeys Middle RandInt = .ok res ∧ res ∉ allkeys) ∧
    ((∀ k ∈ allkeys, isRandStr20 k = true) →
      ∃ res, GetNonKey allkeys Middle RandInt = .ok res ∧ res ∉ allkeys) :=
  ⟨GetNonKey_middle_fresh allkeys RandInt hlen hr,
    fun h => GetNonKey_middle_fresh allkeys RandInt hlen hr
      (fun k hk => isRandStr20_no_ff k (h k hk))⟩

theorem GetNonKey_middle_absent_no_ff_witness :
    (∃ res, GetNonKey [[1, 2], [3, 4, 5], [6, 7]] Middle 9 = .ok res ∧
      res ∉ ([[1, 2], [3, 4, 5], [6, 7]] : List Bytes)) ∧
    (∃ res, GetNonKey [List.replicate 20 48, List.replicate 20 77, List.replicate 20 122]
        Middle 9 = .ok res ∧
      res ∉ ([List.replicate 20 48, List.replicate 20 77, List.replicate 20 122] :
        List Bytes)) :=
  ⟨(GetNonKey_middle_absent_no_ff [[1, 2], [3, 4, 5], [6, 7]] 9 (by decide)
      (by decide)).1 (by decide),
    (GetNonKey_middle_absent_no_ff
      [List.replicate 20 48, List.replicate 20 77, List.replicate 20 122] 9 (by decide)
      (by decide)).2 (by decide)⟩

/-! ## Position of the `Middle` non-key in the universe -/

theorem bytesCompare_lt_of_lt_of_le (a b c : Bytes)
    (h1 : bytesCompare a b < 0) (h2 : bytesCompare b c ≤ 0) : bytesCompare a c < 0 := by
  rcases lt_or_eq_of_le h2 with h | h
  · exact bytesCompare_lt_trans a b c h1 h
  · rw [← bytesCompare_eq_zero b c h]
    exact h1

/-- The half of the position property that holds: in a strictly increasing universe
the `Middle` non-key is strictly above the first key. -/
theorem GetNonKey_middle_above_first (allkeys : List Bytes) (RandInt : Int)
    (hlen : 3 ≤ allkeys.length) (hr : 0 ≤ RandInt)
    (hs : allkeys.Pairwise (fun a b => bytesCompare a b < 0))
    (hk : ∀ k ∈ allkeys, 2 ≤ k.length) :
    ∃ res first, GetNonKey allkeys Middle RandInt = .ok res ∧
      allkeys[0]? = some first ∧ bytesCompare first res < 0 := by
  obtain ⟨key, hget, hkey⟩ := GetKey_middle_get allkeys RandInt hlen hr
  have hmem : key ∈ allkeys := List.getElem?_mem hget
  have hn := hk key hmem
  obtain ⟨hi, hkeq⟩ := List.getElem?_eq_some.mp hget
  refine ⟨_, allkeys[0], GetNonKey_middle_eq allkeys RandInt key hkey hn,
    by simp [show 0 < allkeys.length by omega], ?_⟩
  have hlt : bytesCompare allkeys[0] key < 0 := by
    rw [← hkeq]
    exact (List.pairwise_iff_getElem.mp hs) 0 _ (by omega) hi (by omega)
  obtain ⟨a, b, hab⟩ := exists_last_two key hn
  have e := bytesCompare_append_left (key.take (key.length - 2)) [a, b] [255, 255]
  rw [← hab] at e
  exact bytesCompare_lt_of_lt_of_le _ key _ hlt (by rw [e]; exact bytesCompare_le_ff a b)

/-- C13 (the code at the failing input): three strictly increasing keys of 20 letters
that share their first 18 bytes; the `Middle` non-key built from the interior key is
byte-wise above the last key of the universe, not below it. -/
theorem GetNonKey_middle_above_last :
    (∀ k ∈ ([List.replicate 18 65 ++ [65, 65], List.replicate 18 65 ++ [65, 66],
        List.replicate 18 65 ++ [65, 67]] : List Bytes), isRandStr20 k = true) ∧
    ([List.replicate 18 65 ++ [65, 65], List.replicate 18 65 ++ [65, 66],
        List.replicate 18 65 ++ [65, 67]] : List Bytes).Pairwise
      (fun a b => bytesCompare a b < 0) ∧
    GetNonKey [List.replicate 18 65 ++ [65, 65], List.replicate 18 65 ++ [65, 66],
        List.replicate 18 65 ++ [65, 67]] Middle 0
      = .ok (List.replicate 18 65 ++ [255, 255]) ∧
    bytesCompare (List.replicate 18 65 ++ [255, 255]) (List.replicate 18 65 ++ [65, 67])
      = 1 :=
  ⟨by decide, by decide, rfl, by decide⟩

/-! ## The value of a result over a faithful store -/

theorem buildLoop_tree_succ {T E : Type} (api : TreeAPI T E) (RandStr : Nat → Bytes)
    (n : Nat) :
    (buildLoop api RandStr (n + 1)).1 =
      api.Set (buildLoop api RandStr n).1 (RandStr n) (valuePrefix ++ RandStr n) := rfl

/-- After the loop of `BuildTree`, a store that remembers the last value set for a key
holds `"value_for_" ++ k` for every generated key `k`. -/
theorem buildLoop_view {T E : Type} (api : TreeAPI T E) (RandStr : Nat → Bytes)
    (view : T → Bytes → Option Bytes)
    (hset : ∀ t k v k1, view (api.Set t k v) k1 = if k1 = k then some v else view t k1) :
    ∀ n i, i < n →
      view (buildLoop api RandStr n).1 (RandStr i) = some (valuePrefix ++ RandStr i) := by
  intro n
  induction n with
  | zero => intro i hi; omega
  | succ n ih =>
    intro i hi
    rw [buildLoop_tree_succ, hset]
    by_cases he : RandStr i = RandStr n
    · rw [if_pos he, he]
    · rw [if_neg he]
      have hne : i ≠ n := fun h => he (by rw [h])
      exact ih i (by omega)

/-- C11: over a tree that is a faithful key/value store (a lookup returns the value
most recently set for the key, and `GetWithProof` returns that lookup whenever it
returns no error), the `Value` of every successful `GenerateIavlResult` is the ten
bytes `118 97 108 117 101 95 102 111 114 95`, which spell `"value_for_"`, followed by
the bytes of the `Key`. -/
theorem GenerateIavlResult_value_derived {T E : Type} (api : TreeAPI T E)
    (makeLimit : Nat) (RandStr : Nat → Bytes) (RandInt size : Int) (loc : Where)
    (view : T → Bytes → Option Bytes)
    (hset : ∀ t k v k1, view (api.Set t k v) k1 = if k1 = k then some v else view t k1)
    (hget : ∀ t k, (api.GetWithProof t k).1.2.2 = none →
      (api.GetWithProof t k).1.1 = view t k)
    (res : IavlResult) (e : Option (GoError E))
    (h : GenerateIavlResult api makeLimit RandStr RandInt size loc = .ok (some res, e)) :
    res.Value = ([118, 97, 108, 117, 101, 95, 102, 111, 114, 95] : Bytes) ++ res.Key ∧
    ([118, 97, 108, 117, 101, 95, 102, 111, 114, 95] : Bytes) =
      "value_for_".toList.map (fun c => Fin.ofNat c.toNat) := by
  obtain ⟨tree, tree1, allkeys, value, proof, hb, hk, hg, _, hres, _⟩ :=
    GenerateIavlResult_success api makeLimit RandStr RandInt size loc res e h
  have hv : res.Value = value := by rw [hres]
  obtain ⟨_, _, htree, hkeys⟩ := BuildTree_returns api makeLimit RandStr size tree allkeys hb
  have hmem : res.Key ∈ allkeys := GetKey_ok_mem _ _ _ _ hk
  rw [hkeys, (sortSlice_perm _).mem_iff, List.mem_map] at hmem
  obtain ⟨i, hi, hki⟩ := hmem
  rw [List.mem_range] at hi
  have hview := buildLoop_view api RandStr view hset size.toNat i hi
  rw [← htree, hki] at hview
  have hg1 := hget tree res.Key (by rw [hg])
  rw [hg, hview] at hg1
  injection hg1 with hg1
  refine ⟨?_, by decide⟩
  rw [hv, hg1]
  rfl

theorem memTree_lookup_set (t : List (Bytes × Bytes)) (k v k1 : Bytes) :
    (memTree.Set t k v).lookup k1 = if k1 = k then some v else t.lookup k1 := by
  show List.lookup k1 ((k, v) :: t) = _
  rw [List.lookup_cons]
  by_cases hk : k1 = k
  · simp [hk]
  · have hb : (k1 == k) = false := beq_eq_false_iff_ne.mpr hk
    rw [hb, if_neg hk]

theorem memTree_get_lookup (t : List (Bytes × Bytes)) (k : Bytes) :
    (memTree.GetWithProof t k).1.1 = t.lookup k := by
  simp only [memTree]
  cases hl : t.lookup k <;> rfl

theorem GenerateIavlResult_value_derived_witness :
    ([118, 97, 108, 117, 101, 95, 102, 111, 114, 95, 69, 65] : Bytes) =
      [118, 97, 108, 117, 101, 95, 102, 111, 114, 95] ++ [69, 65] ∧
    GenerateIavlResult memTree makeLimit64 (fun i => [Fin.ofNat (70 - i), 65]) 0 3 Middle =
      .ok (some { Key := [69, 65],
                  Value := [118, 97, 108, 117, 101, 95, 102, 111, 114, 95, 69, 65],
                  Proof := some { Leaves := [{
                    Key := [69, 65],
                    Value := [118, 97, 108, 117, 101, 95, 102, 111, 114, 95, 69, 65] }] },
                  RootHash := (memTree.WorkingHash
                    (buildLoop memTree (fun i => [Fin.ofNat (70 - i), 65]) 3).1).1 },
        none) :=
  ⟨(GenerateIavlResult_value_derived memTree makeLimit64
      (fun i => [Fin.ofNat (70 - i), 65]) 0 3 Middle
      (fun t k => t.lookup k) memTree_lookup_set (fun t k _ => memTree_get_lookup t k)
      { Key := [69, 65],
        Value := [118, 97, 108, 117, 101, 95, 102, 111, 114, 95, 69, 65],
        Proof := some { Leaves := [{
          Key := [69, 65],
          Value := [118, 97, 108, 117, 101, 95, 102, 111, 114, 95, 69, 65] }] },
        RootHash := (memTree.WorkingHash
          (buildLoop memTree (fun i => [Fin.ofNat (70 - i), 65]) 3).1).1 }
      none (by rfl)).1,
    by rfl⟩

/-! ## `GetNonKey` leaves the universe untouched -/

theorem storeByte_other (m m1 : Heap) (s : Slice) (i : Int) (v : Byte)
    (h : storeByte m s i v = .ok m1) (a : Nat) (ha : a ≠ s.arr) :
    m1.getD a [] = m.getD a [] := by
  unfold storeByte at h
  split_ifs at h
  injection h with h
  subst h
  simp only [List.getD_eq_getElem?_getD]
  rw [List.getElem?_set_ne (Ne.symm ha)]

theorem alloc_old (m : Heap) (content : Bytes) (a : Nat) (ha : a < m.length) :
    (alloc m content).2.getD a [] = m.getD a [] := by
  unfold alloc
  simp only [List.getD_eq_getElem?_getD]
  rw [List.getElem?_append_left ha]

theorem alloc_arr (m : Heap) (content : Bytes) : (alloc m content).1.arr = m.length := rfl

/-- What a returning call of `GetNonKeyMem` at a position other than `Left` and `Right`
did: it copied the selected key into a fresh array and stored two bytes there. -/
theorem GetNonKeyMem_middle_steps (m m1 : Heap) (allkeys : List Slice) (loc : Where)
    (RandInt : Int) (key : Slice) (hl : loc ≠ Left) (hr : loc ≠ Right)
    (h : GetNonKeyMem m allkeys loc RandInt = .ok (key, m1)) :
    ∃ src m2, GetKeyMem allkeys loc RandInt = .ok src ∧ src.len ≠ 0 ∧
      key = (alloc m (readSlice m src)).1 ∧
      storeByte (alloc m (readSlice m src)).2 key ((key.len : Int) - 2) 255 = .ok m2 ∧
      storeByte m2 key ((key.len : Int) - 1) 255 = .ok m1 := by
  unfold GetNonKeyMem at h
  rw [if_neg hl, if_neg hr] at h
  cases hsrc : GetKeyMem allkeys loc RandInt with
  | error f => simp [hsrc, bind, Except.bind] at h
  | ok src =>
    simp only [hsrc, bind, Except.bind] at h
    by_cases h0 : src.len = 0
    · simp [appendToEmpty, h0, storeByte] at h
    · simp only [appendToEmpty, h0, if_false] at h
      cases hs1 : storeByte (alloc m (readSlice m src)).2 (alloc m (readSlice m src)).1
          (((alloc m (readSlice m src)).1.len : Int) - 2) 255 with
      | error f => simp [hs1] at h
      | ok m2 =>
        simp only [hs1] at h
        cases hs2 : storeByte m2 (alloc m (readSlice m src)).1
            (((alloc m (readSlice m src)).1.len : Int) - 1) 255 with
        | error f => simp [hs2] at h
        | ok m3 =>
          simp only [hs2, pure, Except.pure, Except.ok.injEq, Prod.mk.injEq] at h
          obtain ⟨hkey, hm⟩ := h
          subst hm
          subst hkey
          exact ⟨src, m2, rfl, h0, rfl, hs1, hs2⟩

/-- Every array allocated before a returning call of `GetNonKeyMem` holds the same
bytes after it. -/
theorem GetNonKeyMem_old_arrays (m m1 : Heap) (allkeys : List Slice) (loc : Where)
    (RandInt : Int) (key : Slice)
    (h : GetNonKeyMem m allkeys loc RandInt = .ok (key, m1)) (a : Nat) (ha : a < m.length) :
    m1.getD a [] = m.getD a [] := by
  by_cases hl : loc = Left
  · unfold GetNonKeyMem at h
    rw [if_pos hl] at h
    injection h with h
    rw [← (Prod.mk.inj h).2]
    exact alloc_old m _ a ha
  · by_cases hr : loc = Right
    · unfold GetNonKeyMem at h
      rw [if_neg hl, if_pos hr] at h
      injection h with h
      rw [← (Prod.mk.inj h).2]
      exact alloc_old m _ a ha
    · obtain ⟨src, m2, _, _, hkey, hs1, hs2⟩ :=
        GetNonKeyMem_middle_steps m m1 allkeys loc RandInt key hl hr h
      have harr : key.arr = m.length := by rw [hkey]; rfl
      have hne : a ≠ key.arr := by omega
      rw [storeByte_other m2 m1 key _ _ hs2 a hne, storeByte_other _ m2 key _ _ hs1 a hne]
      exact alloc_old m _ a ha

/-- C16: whenever `GetNonKey` returns, every key of the universe (each lying in an
array allocated before the call) denotes the same bytes after the call as before it,
and so does every array allocated before the call; at `Middle` the bytes are
overwritten in a newly allocated copy of the selected key. -/
theorem GetNonKeyMem_frame (m m1 : Heap) (allkeys : List Slice) (loc : Where)
    (RandInt : Int) (key : Slice)
    (hwf : ∀ s ∈ allkeys, s.arr < m.length)
    (h : GetNonKeyMem m allkeys loc RandInt = .ok (key, m1)) :
    allkeys.map (readSlice m1) = allkeys.map (readSlice m) ∧
    (∀ a, a < m.length → m1.getD a [] = m.getD a []) ∧
    key.arr = m.length ∧ (∀ s ∈ allkeys, s.arr ≠ key.arr) := by
  have hold := GetNonKeyMem_old_arrays m m1 allkeys loc RandInt key h
  have harr : key.arr = m.length := by
    by_cases hl : loc = Left
    · unfold GetNonKeyMem at h
      rw [if_pos hl] at h
      injection h with h
      rw [← (Prod.mk.inj h).1]
    · by_cases hr : loc = Right
      · unfold GetNonKeyMem at h
        rw [if_neg hl, if_pos hr] at h
        injection h with h
        rw [← (Prod.mk.inj h).1]
      · obtain ⟨src, m2, _, _, hkey, _, _⟩ :=
          GetNonKeyMem_middle_steps m m1 allkeys loc RandInt key hl hr h
        rw [hkey]
        rfl
  refine ⟨?_, hold, harr, ?_⟩
  · apply List.map_congr_left
    intro s hs
    unfold readSlice
    rw [hold s.arr (hwf s hs)]
  · intro s hs
    have := hwf s hs
    omega

theorem GetNonKeyMem_frame_witness :
    ([⟨0, 0, 2⟩, ⟨0, 2, 3⟩, ⟨1, 0, 3⟩] : List Slice).map
        (readSlice [[1, 2, 3, 4, 5, 6], [7, 8, 9], [3, 255, 255]]) =
      ([⟨0, 0, 2⟩, ⟨0, 2, 3⟩, ⟨1, 0, 3⟩] : List Slice).map
        (readSlice [[1, 2, 3, 4, 5, 6], [7, 8, 9]]) ∧
    readSlice [[1, 2, 3, 4, 5, 6], [7, 8, 9], [3, 255, 255]] ⟨2, 0, 3⟩ = [3, 255, 255] :=
  ⟨(GetNonKeyMem_frame [[1, 2, 3, 4, 5, 6], [7, 8, 9]]
      [[1, 2, 3, 4, 5, 6], [7, 8, 9], [3, 255, 255]]
      [⟨0, 0, 2⟩, ⟨0, 2, 3⟩, ⟨1, 0, 3⟩] Middle 0 ⟨2, 0, 3⟩ (by decide) (by rfl)).1,
    by decide⟩

/-! ## The memory-level `GetNonKey` computes the content-level one -/

theorem index_map {α β : Type} (f : α → β) (xs : List α) (i : Int) :
    index (xs.map f) i = (index xs i).map f := by
  unfold index
  split_ifs
  · rfl
  · rw [List.getElem?_map]
    cases xs[i.toNat]? <;> rfl

theorem GetKey_map (m : Heap) (allkeys : List Slice) (loc : Where) (RandInt : Int) :
    GetKey (allkeys.map (readSlice m)) loc RandInt =
      (GetKeyMem allkeys loc RandInt).map (readSlice m) := by
  have hlen : len (allkeys.map (readSlice m)) = len allkeys := by
    unfold len
    rw [List.length_map]
  unfold GetKey GetKeyMem
  rw [hlen]
  split_ifs
  · exact index_map _ _ _
  · exact index_map _ _ _
  · rfl
  · exact index_map _ _ _

theorem readSlice_alloc (m : Heap) (c : Bytes) :
    readSlice (m ++ [c]) { arr := m.length, off := 0, len := c.length } = c := by
  unfold readSlice
  simp

theorem storeByte_alloc (m : Heap) (c : Bytes) (i : Int) (v : Byte) :
    storeByte (m ++ [c]) { arr := m.length, off := 0, len := c.length } i v =
      (setIndex c i v).map (fun c1 => m ++ [c1]) := by
  unfold storeByte setIndex
  split_ifs
  · rfl
  · simp [Except.map]
  · rfl

/-- The bytes denoted by the result of `GetNonKeyMem`, in the heap it leaves behind,
are the result of `GetNonKey` on the bytes of the universe; both fault alike. -/
theorem GetNonKeyMem_content (m : Heap) (allkeys : List Slice) (loc : Where)
    (RandInt : Int) :
    (GetNonKeyMem m allkeys loc RandInt).map (fun p => readSlice p.2 p.1) =
      GetNonKey (allkeys.map (readSlice m)) loc RandInt := by
  unfold GetNonKeyMem GetNonKey
  by_cases hl : loc = Left
  · rw [if_pos hl, if_pos hl]
    exact congrArg Except.ok (readSlice_alloc m [0, 0, 0, 1])
  · rw [if_neg hl, if_neg hl]
    by_cases hr : loc = Right
    · rw [if_pos hr, if_pos hr]
      exact congrArg Except.ok (readSlice_alloc m [255, 255, 255, 255])
    · rw [if_neg hr, if_neg hr, GetKey_map]
      cases hsrc : GetKeyMem allkeys loc RandInt with
      | error f => rfl
      | ok src =>
        simp only [bind, Except.bind, Except.map]
        by_cases h0 : src.len = 0
        · have hc : readSlice m src = [] := by
            unfold readSlice
            rw [h0, List.take_zero]
          simp [appendToEmpty, h0, hc, storeByte, setIndex, len]
        · simp only [appendToEmpty, h0, if_false, alloc]
          rw [storeByte_alloc]
          cases hs1 : setIndex (readSlice m src) (len (readSlice m src) - 2) 255 with
          | error f =>
            simp only [len] at hs1
            simp [hs1, Except.map]
          | ok c1 =>
            have hlen1 : c1.length = (readSlice m src).length := by
              unfold setIndex at hs1
              split_ifs at hs1
              injection hs1 with hs1
              rw [← hs1, List.length_set]
            simp only [len] at hs1
            simp only [hs1, Except.map]
            rw [← hlen1, storeByte_alloc]
            cases hs2 : setIndex c1 (len c1 - 1) 255 with
            | error f =>
              simp only [len] at hs2
              simp [hs2, Except.map]
            | ok c2 =>
              have hlen2 : c2.length = c1.length := by
                unfold setIndex at hs2
                split_ifs at hs2
                injection hs2 with hs2
                rw [← hs2, List.length_set]
              simp only [len] at hs2
              simp only [hs2, Except.map, pure, Except.pure]
              rw [← hlen2]
              exact congrArg Except.ok (readSlice_alloc m c2)

end Helpers

